import Mathlib

/-!
The package lrcache: an LRU cache in memory with Redis as second tier.

A shallow embedding of `lrcache.go`, `lrcache_item.go` and `redis_storage.go`.

* Go values of type `interface{}` are the inductive `Value`; Go `error` values are `GoError`,
  an absent error is `none`.
* The three libraries the package calls are modelled next to it: `encoding/gob` for the scalar
  types the typed accessors know (`gob`), the container `hashicorp/golang-lru` (`lru`) and the
  replies of a Redis connection as the redigo helpers hand them to the adapter (`Conn`).
* Methods that mutate their receiver return the new receiver next to their Go results.
-/

namespace lrcache

/-- A Go byte slice (`[]byte`, `[]uint8`); every element stands for one octet. -/
abbrev Bytes := List Nat

/-- Go `error` values: the sentinel `redis.ErrNil`, which the adapter compares by identity,
and every other error, known by its message. -/
inductive GoError where
  | ErrNil
  | New (msg : String)
  deriving DecidableEq, Repr

/-- The values (`interface{}`) a caller may hand to `Set` and find in an item.
A Go `string` is its byte sequence, a `float64` is its IEEE 754 bit pattern, `int` has 64 bits.
`pointer elem wire` is a pointer to a value of the named type `elem` (a struct of the caller,
as `*Person` in `example/custom_type`), together with the stream gob writes for it. -/
inductive Value where
  | nil
  | string (s : Bytes)
  | int32 (n : Int)
  | int64 (n : Int)
  | int (n : Int)
  | float64 (bits : Nat)
  | bool (b : Bool)
  | uint8s (b : Bytes)
  | pointer (elem : String) (wire : Bytes)
  deriving DecidableEq, Repr

/-- A byte slice of Go: its length is an `int`, its octets are below 256. -/
def BytesWF (b : Bytes) : Prop := b.length < 2 ^ 63 ∧ ∀ x ∈ b, x < 256

instance (b : Bytes) : Decidable (BytesWF b) := by
  unfold BytesWF; infer_instance

/-- The values of the model that are Go values: integers within the range of their type,
bit patterns of 64 bits, byte sequences as Go has them. -/
def Value.WF : Value → Prop
  | .nil => True
  | .string s => BytesWF s
  | .int32 n => -2 ^ 31 ≤ n ∧ n < 2 ^ 31
  | .int64 n => -2 ^ 63 ≤ n ∧ n < 2 ^ 63
  | .int n => -2 ^ 63 ≤ n ∧ n < 2 ^ 63
  | .float64 bits => bits < 2 ^ 64
  | .bool _ => True
  | .uint8s b => BytesWF b
  | .pointer _ wire => BytesWF wire

instance (v : Value) : Decidable v.WF := by
  cases v <;> unfold Value.WF <;> infer_instance

/-- The text `reflect.TypeOf(v).String()`; `reflect.TypeOf(nil)` is the nil type, which has no
name (the accessors test `v != nil` before they ask). -/
def reflectTypeString : Value → Option String
  | .nil => none
  | .string _ => some "string"
  | .int32 _ => some "int32"
  | .int64 _ => some "int64"
  | .int _ => some "int"
  | .float64 _ => some "float64"
  | .bool _ => some "bool"
  | .uint8s _ => some "[]uint8"
  | .pointer elem _ => some ("*" ++ elem)

/-! ## encoding/gob, for the scalar types of the typed accessors

The wire format of the Go standard library: an unsigned integer below 128 is one byte, a
larger one is its minimal big-endian bytes after a byte holding the negated byte count; a
signed integer is folded into an unsigned one with the sign in bit 0; a float is its bit
pattern with the bytes reversed; a string is its length and its bytes. A value that is not a
struct travels as one message: the length of the message, the id of its type, a zero field
delta, the value. The limit `tooBig` on the size of a message is not modelled. -/
namespace gob

/-- The constant `uint64Size`. -/
def uint64Size : Nat := 8

/-- The function `binary.BigEndian.PutUint64`: the eight bytes of `x`, most significant first. -/
def putUint64 (x : Nat) : Bytes :=
  [x / 2 ^ 56 % 256, x / 2 ^ 48 % 256, x / 2 ^ 40 % 256, x / 2 ^ 32 % 256,
   x / 2 ^ 24 % 256, x / 2 ^ 16 % 256, x / 2 ^ 8 % 256, x % 256]

/-- The loop `x = x<<8 | uint64(b)` over a run of bytes. -/
def bigEndian (bs : Bytes) : Nat := bs.foldl (fun x b => x * 256 + b) 0

/-- The method `encoderState.encodeUint`. `bc` is `bits.LeadingZeros64(x) >> 3`, the number of
leading zero bytes; the first byte written is `uint8(bc - uint64Size)`. -/
def encodeUint (x : Nat) : Bytes :=
  if x ≤ 0x7F then [x]
  else
    let buf := putUint64 x
    let bc := (buf.takeWhile (fun b => b = 0)).length
    ((bc + 256 - uint64Size) % 256) :: buf.drop bc

/-- The method `encoderState.encodeInt` on an `int64`: `uint64(^i<<1) | 1` for a negative `i`,
`uint64(i<<1)` otherwise (bit 0 is clear after the shift, so the `| 1` adds one). -/
def encodeInt (i : Int) : Bytes :=
  if i < 0 then encodeUint ((((-i - 1) * 2) % 2 ^ 64).toNat + 1)
  else encodeUint ((i * 2 % 2 ^ 64).toNat)

/-- The function `floatBits`: `bits.ReverseBytes64` of the bit pattern. -/
def floatBits (u : Nat) : Nat := bigEndian (putUint64 u).reverse

/-- The ids gob gives the predefined types (`tBool`, `tInt`, `tFloat`, `tBytes`, `tString`). -/
def tBool : Int := 1

/-- The id `tInt`; all signed integer types travel under it. -/
def tInt : Int := 2

/-- The id `tFloat`. -/
def tFloat : Int := 4

/-- The id `tBytes`. -/
def tBytes : Int := 5

/-- The id `tString`. -/
def tString : Int := 6

/-- Framing of a value that is not a struct (`sendTypeId`, `encodeSingle`, `writeMessage`):
the type id, the field delta zero and the value, all behind their length. -/
def message (id : Int) (payload : Bytes) : Bytes :=
  let body := encodeInt id ++ encodeUint 0 ++ payload
  encodeUint body.length ++ body

/-- The call `gob.NewEncoder(buffer).Encode(val)` followed by `buffer.Bytes()`: what the
encoder leaves in the buffer. For nil nothing is written (the encoder reports an error,
which `redisStorage.Set` does not look at). -/
def Encode : Value → Bytes
  | .nil => []
  | .string s => message tString (encodeUint s.length ++ s)
  | .int32 n => message tInt (encodeInt n)
  | .int64 n => message tInt (encodeInt n)
  | .int n => message tInt (encodeInt n)
  | .float64 bits => message tFloat (encodeUint (floatBits bits))
  | .bool b => message tBool (encodeUint (if b then 1 else 0))
  | .uint8s b => message tBytes (encodeUint b.length ++ b)
  | .pointer _ wire => wire

/-- The method `decoderState.decodeUint` (and `decodeUintReader`): the value read and the rest
of the buffer. `256 - b` is `-int(int8(b))` for a first byte above `0x7f`. -/
def decodeUint : Bytes → Except GoError (Nat × Bytes)
  | [] => .error (.New "EOF")
  | b :: rest =>
    if b ≤ 0x7f then .ok (b, rest)
    else
      let n := 256 - b
      if n > uint64Size then .error (.New "gob: encoded unsigned integer out of range")
      else if rest.length < n then .error (.New "invalid uint data length: exceeds input size")
      else .ok (bigEndian (rest.take n), rest.drop n)

/-- The method `decoderState.decodeInt`: `^int64(x>>1)` when bit 0 is set, `int64(x>>1)`
otherwise. -/
def decodeInt (buf : Bytes) : Except GoError (Int × Bytes) :=
  match decodeUint buf with
  | .error e => .error e
  | .ok (x, rest) =>
    if x % 2 ≠ 0 then .ok (-((x / 2 : Nat) : Int) - 1, rest) else .ok (((x / 2 : Nat) : Int), rest)

/-- The start of `Decoder.DecodeValue` (`recvMessage`, `decodeTypeSequence`): read the length
of the message and that many bytes, then the type id. A negative id opens a type definition,
which no scalar is sent with; the model stops there with the error gob ends with once the
value of the defined type arrives. -/
def decodeTypeSequence (r : Bytes) : Except GoError (Int × Bytes) :=
  match decodeUint r with
  | .error e => .error e
  | .ok (nbytes, r1) =>
    if r1.length < nbytes then .error (.New "unexpected EOF")
    else
      match decodeInt (r1.take nbytes) with
      | .error e => .error e
      | .ok (id, buf) =>
        if id ≥ 0 then .ok (id, buf)
        else .error (.New "gob: decoding into local type, received remote type")

/-- The method `Decoder.decodeSingle`: the field delta of a value outside a struct is zero,
then the instruction `op` of the local type reads the value. -/
def decodeSingle {α : Type} (op : Bytes → Except GoError (α × Bytes)) (buf : Bytes) :
    Except GoError α :=
  match decodeUint buf with
  | .error e => .error e
  | .ok (delta, b1) =>
    if delta ≠ 0 then .error (.New "decode: corrupted data: non-zero delta for singleton")
    else
      match op b1 with
      | .error e => .error e
      | .ok (x, _) => .ok x

/-- The method `Decoder.decodeValue` for a local type whose wire id is `want`
(`compatibleType`), decoding with `op`. -/
def decodeValue {α : Type} (want : Int) (op : Bytes → Except GoError (α × Bytes))
    (r : Bytes) : Except GoError α :=
  match decodeTypeSequence r with
  | .error e => .error e
  | .ok (id, buf) =>
    if id ≠ want then .error (.New "gob: decoding into local type, received remote type")
    else decodeSingle op buf

/-- The instruction `decString`. -/
def decString (buf : Bytes) : Except GoError (Bytes × Bytes) :=
  match decodeUint buf with
  | .error e => .error e
  | .ok (n, data) =>
    if data.length < n then .error (.New "bad string length")
    else .ok (data.take n, data.drop n)

/-- The instruction `decInt32`, with its range check. -/
def decInt32 (buf : Bytes) : Except GoError (Int × Bytes) :=
  match decodeInt buf with
  | .error e => .error e
  | .ok (v, rest) =>
    if v < -2 ^ 31 ∨ 2 ^ 31 - 1 < v then .error (.New "value out of range")
    else .ok (v, rest)

/-- The instruction `decInt64`, which also serves `int`. -/
def decInt64 (buf : Bytes) : Except GoError (Int × Bytes) := decodeInt buf

/-- The instruction `decFloat64`: `float64FromBits` reverses the bytes again. -/
def decFloat64 (buf : Bytes) : Except GoError (Nat × Bytes) :=
  match decodeUint buf with
  | .error e => .error e
  | .ok (u, rest) => .ok (bigEndian (putUint64 u).reverse, rest)

/-- The call `dec.Decode(result)` with `result := new(string)`. -/
def DecodeString (r : Bytes) : Except GoError Bytes := decodeValue tString decString r

/-- The call `dec.Decode(result)` with `result := new(int32)`. -/
def DecodeInt32 (r : Bytes) : Except GoError Int := decodeValue tInt decInt32 r

/-- The call `dec.Decode(result)` with `result := new(int64)`. -/
def DecodeInt64 (r : Bytes) : Except GoError Int := decodeValue tInt decInt64 r

/-- The call `dec.Decode(result)` with `result := new(int)`. -/
def DecodeInt (r : Bytes) : Except GoError Int := decodeValue tInt decInt64 r

/-- The call `dec.Decode(result)` with `result := new(float64)`. -/
def DecodeFloat64 (r : Bytes) : Except GoError Nat := decodeValue tFloat decFloat64 r

end gob

/-! ## The container hashicorp/golang-lru

`lru.Cache` keeps a list of entries, most recently used first (`evictList`), and a map from
each key to its element of the list (`items`). The map is an index of the list, so the model
keeps the list alone. The callback `onEvicted` becomes a result: an operation returns the
entry it handed to the callback, and the caller runs the callback on it. -/
namespace lru

/-- The struct `entry` of the list. -/
structure entry where
  key : String
  value : Value
  deriving DecidableEq, Repr

/-- The struct `lru.Cache`. The library runs `onEvicted` from `removeElement`, which `Remove`
shares with the eviction in `Add`; `notifyRemove` says whether `Remove` reaches the callback,
so that a statement made for both values does not depend on it. -/
structure Cache where
  size : Nat
  evictList : List entry
  notifyRemove : Bool
  deriving DecidableEq, Repr

/-- The lookup `c.items[key]` on the list. -/
def lookup (key : String) : List entry → Option entry
  | [] => none
  | e :: es => if e.key = key then some e else lookup key es

/-- The call `c.evictList.Remove(ent)` together with `delete(c.items, key)`, for the element
that holds `key`. -/
def unlink (key : String) : List entry → List entry
  | [] => []
  | e :: es => if e.key = key then es else e :: unlink key es

/-- The constructor `lru.NewWithEvict`. -/
def NewWithEvict (size : Int) (notifyRemove : Bool) : Except GoError Cache :=
  if size ≤ 0 then .error (.New "Must provide a positive size")
  else .ok { size := size.toNat, evictList := [], notifyRemove := notifyRemove }

/-- The method `Cache.Contains`: no change of recency. -/
def Cache.Contains (c : Cache) (key : String) : Bool := (lookup key c.evictList).isSome

/-- The method `Cache.Get`: value and `ok`, and the cache with the entry moved to the front. -/
def Cache.Get (c : Cache) (key : String) : (Value × Bool) × Cache :=
  match lookup key c.evictList with
  | some ent => ((ent.value, true), { c with evictList := ent :: unlink key c.evictList })
  | none => ((Value.nil, false), c)

/-- The method `Cache.Add`: the cache, the entry handed to `onEvicted` if there is one, and
the returned flag. A key that is present moves to the front with the new value; a new key is
pushed to the front and, when the list is longer than `size`, `removeOldest` takes the back. -/
def Cache.Add (c : Cache) (key : String) (value : Value) : Cache × Option entry × Bool :=
  match lookup key c.evictList with
  | some _ => ({ c with evictList := ⟨key, value⟩ :: unlink key c.evictList }, none, false)
  | none =>
    let l := (⟨key, value⟩ : entry) :: c.evictList
    if l.length > c.size then ({ c with evictList := l.dropLast }, l.getLast?, true)
    else ({ c with evictList := l }, none, false)

/-- The method `Cache.Remove`: the cache and the entry handed to `onEvicted`, if any. -/
def Cache.Remove (c : Cache) (key : String) : Cache × Option entry :=
  match lookup key c.evictList with
  | some ent =>
    ({ c with evictList := unlink key c.evictList }, if c.notifyRemove then some ent else none)
  | none => (c, none)

/-- The keys of the list, most recently used first. -/
def Cache.Keys (c : Cache) : List String := c.evictList.map entry.key

/-- What the map `items` guarantees for the list: one entry per key, no more entries than
`size`, and a positive `size`. -/
def Cache.WF (c : Cache) : Prop :=
  c.Keys.Nodup ∧ c.evictList.length ≤ c.size ∧ 1 ≤ c.size

instance (c : Cache) : Decidable c.WF := by
  unfold Cache.WF; infer_instance

end lru

/-! ## The Redis adapter (`redis_storage.go`) -/

/-- A Redis server behind the connection pool, seen through the three calls of the adapter:
`redis.Bytes(conn.Do("GET", k))`, `redis.String(conn.Do("SET", k, b))` and
`redis.Int(conn.Do("DEL", k))`. Each gives the pair the redigo helper returns, and the next
state of the server. -/
structure Conn (σ : Type) where
  GET : σ → String → (Bytes × Option GoError) × σ
  SET : σ → String → Bytes → (String × Option GoError) × σ
  DEL : σ → String → (Int × Option GoError) × σ

/-- The struct `redisStorage` (exported as `RedisStorage` in the package `lrcache.go`
imports): `pool` is the state of the server the pool connects to. -/
structure redisStorage (σ : Type) where
  pool : σ
  redisPrefix : String

/-- The method `redisStorage.Get`. The returned `data` is a `[]byte` in an `interface{}`. -/
def redisStorage.Get {σ : Type} (c : Conn σ) (rs : redisStorage σ) (key : String) :
    (Value × Option GoError) × redisStorage σ :=
  let r := c.GET rs.pool (rs.redisPrefix ++ key)
  let rs1 : redisStorage σ := { rs with pool := r.2 }
  if r.1.2 = some GoError.ErrNil then ((Value.nil, none), rs1)
  else if r.1.2 ≠ none then ((Value.nil, r.1.2), rs1)
  else ((Value.uint8s r.1.1, none), rs1)

/-- The method `redisStorage.Set`. A nil `toStore` goes over the wire as the empty string. -/
def redisStorage.Set {σ : Type} (c : Conn σ) (rs : redisStorage σ) (key : String)
    (val : Value) : Option GoError × redisStorage σ :=
  let toStore : Bytes := if val ≠ Value.nil then gob.Encode val else []
  let r := c.SET rs.pool (rs.redisPrefix ++ key) toStore
  let rs1 : redisStorage σ := { rs with pool := r.2 }
  if r.1.2 ≠ none then (r.1.2, rs1)
  else if r.1.1 ≠ "OK" then (some (GoError.New "redis: SETEX call failed"), rs1)
  else (none, rs1)

/-- The method `redisStorage.Delete`. -/
def redisStorage.Delete {σ : Type} (c : Conn σ) (rs : redisStorage σ) (key : String) :
    Option GoError × redisStorage σ :=
  let r := c.DEL rs.pool (rs.redisPrefix ++ key)
  let rs1 : redisStorage σ := { rs with pool := r.2 }
  if r.1.2 ≠ none then (r.1.2, rs1)
  else if r.1.1 ≠ 1 then (some (GoError.New "redis: DEL call failed"), rs1)
  else (none, rs1)

/-- The contents of a Redis server: the pairs of key and value, the newest first. -/
abbrev Store := List (String × Bytes)

/-- The value a server holds under `k`. -/
def Store.find (k : String) : Store → Option Bytes
  | [] => none
  | (k1, b) :: s => if k1 = k then some b else Store.find k s

/-- The server without `k`. -/
def Store.erase (k : String) : Store → Store
  | [] => []
  | (k1, b) :: s => if k1 = k then Store.erase k s else (k1, b) :: Store.erase k s

/-- A server that answers: `GET` gives the value or the nil reply (`redis.ErrNil`), `SET`
overwrites and says `OK`, `DEL` says how many keys it removed. -/
def redisUp : Conn Store where
  GET := fun s k =>
    match Store.find k s with
    | some b => ((b, none), s)
    | none => (([], some GoError.ErrNil), s)
  SET := fun s k b => (("OK", none), (k, b) :: Store.erase k s)
  DEL := fun s k =>
    match Store.find k s with
    | some _ => ((1, none), Store.erase k s)
    | none => ((0, none), s)

/-- No server behind the address (the host `loc22alhost:6379` of the tests): every call ends
with the error of the dial. -/
def redisDown : Conn Unit where
  GET := fun s _ => (([], some (GoError.New "dial tcp: lookup loc22alhost: no such host")), s)
  SET := fun s _ _ => (("", some (GoError.New "dial tcp: lookup loc22alhost: no such host")), s)
  DEL := fun s _ => ((0, some (GoError.New "dial tcp: lookup loc22alhost: no such host")), s)

/-! ## The item returned by `Get` (`lrcache_item.go`) -/

/-- The struct `LRCacheItem`. -/
structure LRCacheItem where
  v : Value
  fromRedis : Bool
  err : Option GoError
  deriving DecidableEq, Repr

/-- The constructor `newLRCacheItem`. -/
def newLRCacheItem (v : Value) (err : Option GoError) (fromRedis : Bool) : LRCacheItem :=
  { v := v, err := err, fromRedis := fromRedis }

/-- The method `LRCacheItem.Error`. -/
def LRCacheItem.Error (l : LRCacheItem) : Option GoError := l.err

/-- The method `LRCacheItem.Value`. -/
def LRCacheItem.Value (l : LRCacheItem) : Value := l.v

/-- The method `LRCacheItem.FromRedis`. -/
def LRCacheItem.FromRedis (l : LRCacheItem) : Bool := l.fromRedis

/-- The method `LRCacheItem.IsGob`. -/
def LRCacheItem.IsGob (l : LRCacheItem) : Bool :=
  decide (l.v ≠ Value.nil) && decide (reflectTypeString l.v = some "[]uint8")

/-- The type assertion `v.([]uint8)`. The accessors reach it under `IsGob` only, where it
holds; Go panics on any other value, for which the model gives the empty slice. -/
def assertUint8s : Value → Bytes
  | .uint8s b => b
  | _ => []

/-- The type assertion `v.(string)`, reached only after the type name was compared. -/
def assertString : Value → Bytes
  | .string s => s
  | _ => []

/-- The type assertion `v.(int32)`, reached only after the type name was compared. -/
def assertInt32 : Value → Int
  | .int32 n => n
  | _ => 0

/-- The type assertion `v.(int64)`, reached only after the type name was compared. -/
def assertInt64 : Value → Int
  | .int64 n => n
  | _ => 0

/-- The type assertion `v.(int)`, reached only after the type name was compared. -/
def assertInt : Value → Int
  | .int n => n
  | _ => 0

/-- The type assertion `v.(float64)`, reached only after the type name was compared. -/
def assertFloat64 : Value → Nat
  | .float64 bits => bits
  | _ => 0

/-- The method `LRCacheItem.StringVal`. -/
def LRCacheItem.StringVal (l : LRCacheItem) : Bytes × Option GoError :=
  if l.Value = Value.nil then ([], none)
  else if l.IsGob then
    match gob.DecodeString (assertUint8s l.Value) with
    | .error err => ([], some err)
    | .ok result => (result, none)
  else if reflectTypeString l.Value = some "string" then (assertString l.Value, none)
  else ([], some (GoError.New "value is not a string"))

/-- The method `LRCacheItem.Int32Val`. -/
def LRCacheItem.Int32Val (l : LRCacheItem) : Int × Option GoError :=
  if l.Value = Value.nil then (0, none)
  else if l.IsGob then
    match gob.DecodeInt32 (assertUint8s l.Value) with
    | .error err => (0, some err)
    | .ok result => (result, none)
  else if reflectTypeString l.Value = some "int32" then (assertInt32 l.Value, none)
  else (0, some (GoError.New "value is not a int32"))

/-- The method `LRCacheItem.Int64Val`. -/
def LRCacheItem.Int64Val (l : LRCacheItem) : Int × Option GoError :=
  if l.Value = Value.nil then (0, none)
  else if l.IsGob then
    match gob.DecodeInt64 (assertUint8s l.Value) with
    | .error err => (0, some err)
    | .ok result => (result, none)
  else if reflectTypeString l.Value = some "int64" then (assertInt64 l.Value, none)
  else (0, some (GoError.New "value is not a int64"))

/-- The method `LRCacheItem.IntVal`. -/
def LRCacheItem.IntVal (l : LRCacheItem) : Int × Option GoError :=
  if l.Value = Value.nil then (0, none)
  else if l.IsGob then
    match gob.DecodeInt (assertUint8s l.Value) with
    | .error err => (0, some err)
    | .ok result => (result, none)
  else if reflectTypeString l.Value = some "int" then (assertInt l.Value, none)
  else (0, some (GoError.New "value is not a int"))

/-- The method `LRCacheItem.Float64Val`. -/
def LRCacheItem.Float64Val (l : LRCacheItem) : Nat × Option GoError :=
  if l.Value = Value.nil then (0, none)
  else if l.IsGob then
    match gob.DecodeFloat64 (assertUint8s l.Value) with
    | .error err => (0, some err)
    | .ok result => (result, none)
  else if reflectTypeString l.Value = some "float64" then (assertFloat64 l.Value, none)
  else (0, some (GoError.New "value is not a float64"))

/-! ## The cache (`lrcache.go`) -/

/-- The struct `LRCache`. The field `onEvict` is the closure `LRCache.onEvict` below. -/
structure LRCache (σ : Type) where
  lruCache : lru.Cache
  redisCache : redisStorage σ

/-- The closure `result.onEvict`: keys of the cache are strings, so the type assertion on
the key holds and the entry is written to Redis; what `Set` of the adapter returns is dropped. -/
def LRCache.onEvict {σ : Type} (c : Conn σ) (rs : redisStorage σ) (key : String)
    (val : Value) : redisStorage σ :=
  (rs.Set c key val).2

/-- The callback applied to the entry an operation of the container handed out, if any. -/
def LRCache.notify {σ : Type} (c : Conn σ) (rs : redisStorage σ) :
    Option lru.entry → redisStorage σ
  | some ent => LRCache.onEvict c rs ent.key ent.value
  | none => rs

/-- The constructor `NewLRCache`: `pool` is the server behind `redisHost`. -/
def NewLRCache {σ : Type} (pool : σ) (redisPrefix : String) (size : Int)
    (notifyRemove : Bool) : Except GoError (LRCache σ) :=
  match lru.NewWithEvict size notifyRemove with
  | .error err => .error err
  | .ok l => .ok { lruCache := l, redisCache := { pool := pool, redisPrefix := redisPrefix } }

/-- The method `LRCache.Get`, with the cache after the call. -/
def LRCache.Get {σ : Type} (c : Conn σ) (lr : LRCache σ) (key : String) :
    LRCacheItem × LRCache σ :=
  if lr.lruCache.Contains key then
    let g := lr.lruCache.Get key
    if g.1.2 then (newLRCacheItem g.1.1 none false, { lr with lruCache := g.2 })
    else
      let r := lr.redisCache.Get c key
      if r.1.2 = none then
        (newLRCacheItem r.1.1 none true, { lruCache := g.2, redisCache := r.2 })
      else (newLRCacheItem Value.nil r.1.2 false, { lruCache := g.2, redisCache := r.2 })
  else
    let r := lr.redisCache.Get c key
    if r.1.2 = none then (newLRCacheItem r.1.1 none true, { lr with redisCache := r.2 })
    else (newLRCacheItem Value.nil r.1.2 false, { lr with redisCache := r.2 })

/-- The method `LRCache.Set`: the returned flag, the key handed to the eviction hook if the
call evicted, and the cache after the call. -/
def LRCache.SetHook {σ : Type} (c : Conn σ) (lr : LRCache σ) (key : String) (val : Value) :
    (Bool × Option String) × LRCache σ :=
  let a := lr.lruCache.Add key val
  ((a.2.2, a.2.1.map lru.entry.key),
    { lruCache := a.1, redisCache := LRCache.notify c lr.redisCache a.2.1 })

/-- The method `LRCache.Set`. -/
def LRCache.Set {σ : Type} (c : Conn σ) (lr : LRCache σ) (key : String) (val : Value) :
    Bool × LRCache σ :=
  ((LRCache.SetHook c lr key val).1.1, (LRCache.SetHook c lr key val).2)

/-- The method `LRCache.Delete`; the error of the adapter is dropped. -/
def LRCache.Delete {σ : Type} (c : Conn σ) (lr : LRCache σ) (key : String) : LRCache σ :=
  let rm := lr.lruCache.Remove key
  let rs := LRCache.notify c lr.redisCache rm.2
  { lruCache := rm.1, redisCache := (rs.Delete c key).2 }

/-! ## Runs of calls -/

/-- A run of `Set` calls in order: for each call the returned flag and the key handed to the
eviction hook, and the cache after the last call. -/
def LRCache.SetAll {σ : Type} (c : Conn σ) (lr : LRCache σ) :
    List (String × Value) → List (Bool × Option String) × LRCache σ
  | [] => ([], lr)
  | kv :: rest =>
    let s := LRCache.SetHook c lr kv.1 kv.2
    let r := LRCache.SetAll c s.2 rest
    (s.1 :: r.1, r.2)

/-- The entry `Add` builds for a pair of key and value. -/
def toEntry (kv : String × Value) : lru.entry := ⟨kv.1, kv.2⟩

/-! ## Concrete inputs -/

/-- A fresh cache of capacity two over an empty server, as `NewLRCache` returns it. -/
def demoFresh : LRCache Store :=
  { lruCache := { size := 2, evictList := [], notifyRemove := true },
    redisCache := { pool := [], redisPrefix := "rl_" } }

/-- Three `Set` calls with distinct keys. -/
def demoSets : List (String × Value) :=
  [("a", Value.int 1), ("b", Value.int 2), ("c", Value.int 3)]

/-- One call of a caller on the cache. -/
inductive Call where
  | Set (key : String) (val : Value)
  | Get (key : String)
  | Delete (key : String)
  deriving DecidableEq, Repr

/-- The key a call names. -/
def Call.key : Call → String
  | .Set key _ => key
  | .Get key => key
  | .Delete key => key

/-- The cache after one call. -/
def LRCache.step {σ : Type} (c : Conn σ) (lr : LRCache σ) : Call → LRCache σ
  | .Set key val => (lr.Set c key val).2
  | .Get key => (lr.Get c key).2
  | .Delete key => lr.Delete c key

/-- The cache after a sequence of calls, made one after the other. -/
def LRCache.run {σ : Type} (c : Conn σ) (lr : LRCache σ) : List Call → LRCache σ
  | [] => lr
  | call :: rest => LRCache.run c (LRCache.step c lr call) rest

/-- The five types that have a typed accessor. -/
def Value.isScalar : Value → Bool
  | .string _ => true
  | .int32 _ => true
  | .int64 _ => true
  | .int _ => true
  | .float64 _ => true
  | _ => false

/-- The typed accessor for the type of the scalar `v` returns `v` and no error on `item`. -/
def accessorYields (item : LRCacheItem) : Value → Prop
  | .string s => item.StringVal = (s, none)
  | .int32 n => item.Int32Val = (n, none)
  | .int64 n => item.Int64Val = (n, none)
  | .int n => item.IntVal = (n, none)
  | .float64 bits => item.Float64Val = (bits, none)
  | _ => False

/-- The value of `key` is the one given to the last `Set`: either the key is resident with
`v`, or it is not resident and the server holds the encoding of `v` under the prefixed key. -/
def LRCache.Holds (lr : LRCache Store) (key : String) (v : Value) : Prop :=
  lr.lruCache.WF ∧
    (lru.lookup key lr.lruCache.evictList = some ⟨key, v⟩ ∨
      (lru.lookup key lr.lruCache.evictList = none ∧
        Store.find (lr.redisCache.redisPrefix ++ key) lr.redisCache.pool = some (gob.Encode v)))

/-- Two `Set` calls on other keys; on a cache of capacity two they evict what was there. -/
def demoCalls : List Call :=
  [Call.Set "b" (Value.int 2), Call.Set "c" (Value.int 3)]

/-- The cache of capacity two after `Set` of `a`, `b` and `c`: `a` was evicted to the server. -/
def demoEvicted : LRCache Store := (LRCache.SetAll redisUp demoFresh demoSets).2

/-- A fresh cache of capacity two with no server behind the address. -/
def demoFreshDown : LRCache Unit :=
  { lruCache := { size := 2, evictList := [], notifyRemove := true },
    redisCache := { pool := (), redisPrefix := "rl_" } }

/-- The same three `Set` calls with no server behind the address. -/
def demoDown : LRCache Unit := (LRCache.SetAll redisDown demoFreshDown demoSets).2

/-- The value is a byte slice (`[]uint8`). -/
def Value.isBytes : Value → Bool
  | .uint8s _ => true
  | _ => false

/-- The call is a `Set` that hands over a byte slice. -/
def Call.setsBytes : Call → Bool
  | .Set _ val => val.isBytes
  | _ => false

/-- The value is an `int`. -/
def Value.isInt : Value → Bool
  | .int _ => true
  | _ => false

/-- What the calls made so far did to one key: nothing, a `Delete` with no `Set` after it, or
a `Set` of `v` with no `Delete` after it. -/
inductive Last where
  | never
  | deleted
  | set (v : Value)
  deriving DecidableEq, Repr

/-- What one more call does to the record of `key`. -/
def Call.effect (key : String) (last : Last) : Call → Last
  | .Set k v => if k = key then Last.set v else last
  | .Get _ => last
  | .Delete k => if k = key then Last.deleted else last

/-- The record of `key` after a sequence of calls. -/
def lastOn (key : String) (calls : List Call) : Last :=
  calls.foldl (Call.effect key) Last.never

/-- The call is a `Set` that hands over nil. -/
def Call.setsNil : Call → Bool
  | .Set _ val => decide (val = Value.nil)
  | _ => false

/-- The key `key` is not resident and the server holds `x` under the prefixed key. -/
def LRCache.Away (lr : LRCache Store) (key : String) (x : Option Bytes) : Prop :=
  lr.lruCache.WF ∧ lru.lookup key lr.lruCache.evictList = none ∧
    Store.find (lr.redisCache.redisPrefix ++ key) lr.redisCache.pool = x

/-- The two tiers agree with the record of `key`: after a `Set` of `v` the value is held
(`Holds`), after a `Delete` the key is in neither tier, and a key no call has named is not
resident, with the server holding what it held at the start, `f0`. -/
def LRCache.Coherent (lr : LRCache Store) (key : String) (f0 : Option Bytes) : Last → Prop
  | .set v => v ≠ Value.nil ∧ lr.Holds key v
  | .deleted => lr.Away key none
  | .never => lr.Away key f0

/-- A fresh cache of capacity two over a server that holds an entry from before. -/
def demoStale : LRCache Store :=
  { lruCache := { size := 2, evictList := [], notifyRemove := true },
    redisCache := { pool := [("rl_a", [3, 4, 0, 2])], redisPrefix := "rl_" } }

/-- A key is set, evicted, set again and evicted again. -/
def demoHistory : List Call :=
  [Call.Set "a" (Value.int 1), Call.Set "b" (Value.int 2), Call.Set "c" (Value.int 3),
   Call.Set "a" (Value.int 4), Call.Get "a", Call.Delete "c", Call.Set "d" (Value.int 5),
   Call.Set "e" (Value.int 6)]

/-- The item `Get` builds for a key that is not resident from what a server that answers
holds under it. -/
def remoteItem : Option Bytes → LRCacheItem
  | some b => { v := Value.uint8s b, fromRedis := true, err := none }
  | none => { v := Value.nil, fromRedis := true, err := none }

/-! ## Lemmas on the container -/

namespace lru

theorem lookup_eq_none {key : String} {es : List entry} :
    lookup key es = none ↔ key ∉ es.map entry.key := by
  induction es with
  | nil => simp [lookup]
  | cons e es ih =>
    simp only [lookup, List.map_cons, List.mem_cons, not_or]
    split
    · rename_i h; simp [h]
    · rename_i h; rw [ih]; constructor
      · intro h2; exact ⟨fun h3 => h h3.symm, h2⟩
      · intro h2; exact h2.2

theorem lookup_some {key : String} {es : List entry} {e : entry} (h : lookup key es = some e) :
    e ∈ es ∧ e.key = key := by
  induction es with
  | nil => simp [lookup] at h
  | cons e1 es ih =>
    simp only [lookup] at h
    split at h
    · rename_i h1; cases h; exact ⟨List.mem_cons_self _ _, h1⟩
    · exact ⟨List.mem_cons_of_mem _ (ih h).1, (ih h).2⟩

end lru

theorem SetAll_append {σ : Type} (c : Conn σ) (lr : LRCache σ) (p q : List (String × Value)) :
    LRCache.SetAll c lr (p ++ q) =
      ((LRCache.SetAll c lr p).1 ++ (LRCache.SetAll c (LRCache.SetAll c lr p).2 q).1,
        (LRCache.SetAll c (LRCache.SetAll c lr p).2 q).2) := by
  induction p generalizing lr with
  | nil => simp [LRCache.SetAll]
  | cons kv p ih => simp [LRCache.SetAll, ih]

/-- Adding a key that is not resident: the list after the call is the first `size` entries of
the list with the new entry in front. -/
theorem lru.Add_fresh (c : lru.Cache) (key : String) (value : Value)
    (hk : key ∉ c.Keys) (hlen : c.evictList.length ≤ c.size) (hs : 1 ≤ c.size) :
    (c.Add key value).1.evictList = (⟨key, value⟩ :: c.evictList).take c.size ∧
    (c.Add key value).1.size = c.size ∧
    (c.Add key value).1.notifyRemove = c.notifyRemove ∧
    (c.Add key value).2 =
      if c.evictList.length = c.size then (c.evictList.getLast?, true) else (none, false) := by
  have hl : lru.lookup key c.evictList = none := lru.lookup_eq_none.mpr hk
  unfold lru.Cache.Add
  rw [hl]
  dsimp only
  by_cases hfull : c.evictList.length = c.size
  · have hgt : (({ key := key, value := value } : lru.entry) :: c.evictList).length > c.size := by
      simp only [List.length_cons]; omega
    rw [if_pos hgt, if_pos hfull]
    refine ⟨?_, rfl, rfl, ?_⟩
    · rw [List.dropLast_eq_take]
      simp [hfull]
    · cases hes : c.evictList with
      | nil => simp [hes] at hfull; omega
      | cons e es => simp [List.getLast?_cons_cons]
  · have hgt : ¬ (({ key := key, value := value } : lru.entry) :: c.evictList).length > c.size := by
      simp only [List.length_cons]; omega
    rw [if_neg hgt, if_neg hfull]
    refine ⟨?_, rfl, rfl, rfl⟩
    rw [List.take_of_length_le]
    simp only [List.length_cons]; omega

theorem take_cons_take {α : Type} (N : Nat) (x : α) (R : List α) :
    (x :: R.take N).take N = (x :: R).take N := by
  cases N with
  | zero => simp
  | succ n => simp [List.take_take]

theorem getLast?_take_reverse {α : Type} (N : Nat) (l : List α) (hN : 1 ≤ N)
    (h : N ≤ l.length) : (l.reverse.take N).getLast? = l[l.length - N]? := by
  rw [List.getLast?_eq_getElem?, List.length_take, List.length_reverse, min_eq_left h,
    List.getElem?_take_of_lt (by omega), List.getElem?_reverse (by omega)]
  congr 1; omega

theorem take_succ_snoc {α : Type} (l : List α) (x : α) (d : Nat) (h : d < l.length) :
    (l ++ [x]).take (d + 1) = l.take d ++ [l[d]] := by
  rw [List.take_append_of_le_length (by omega), List.take_succ, List.getElem?_eq_getElem h]
  rfl


/-- The cache after a run of `Set` calls with distinct keys on an empty cache of capacity
`N`: the last `N` entries are resident, the newest in front; the first `N` calls returned
false without an eviction, each later call returned true and evicted the oldest key. -/
theorem SetAll_fresh {σ : Type} (c : Conn σ) (lr : LRCache σ) (N : Nat) (hN : 1 ≤ N)
    (hsize : lr.lruCache.size = N) (hempty : lr.lruCache.evictList = [])
    (p : List (String × Value)) (hd : (p.map Prod.fst).Nodup) :
    (LRCache.SetAll c lr p).2.lruCache.evictList = ((p.map toEntry).reverse).take N ∧
    (LRCache.SetAll c lr p).2.lruCache.size = N ∧
    (LRCache.SetAll c lr p).1 =
      List.replicate (min N p.length) (false, none) ++
        ((p.map Prod.fst).take (p.length - N)).map (fun k => (true, some k)) := by
  induction p using List.reverseRecOn with
  | nil => simp [LRCache.SetAll, hempty, hsize]
  | append_singleton p kv ih =>
    have hd1 : (p.map Prod.fst).Nodup := by
      rw [List.map_append, List.nodup_append] at hd; exact hd.1
    have hk : kv.1 ∉ p.map Prod.fst := by
      rw [List.map_append, List.nodup_append] at hd
      intro hm; exact hd.2.2 hm (by simp)
    obtain ⟨ih1, ih2, ih3⟩ := ih hd1
    rw [SetAll_append]
    simp only [LRCache.SetAll, List.append_nil]
    generalize hst : (LRCache.SetAll c lr p).2 = st at ih1 ih2 ih3 ⊢
    have hkeys : kv.1 ∉ st.lruCache.Keys := by
      unfold lru.Cache.Keys
      rw [ih1]
      intro hm
      rw [List.mem_map] at hm
      obtain ⟨e, he, hek⟩ := hm
      have he2 := List.mem_of_mem_take he
      simp only [List.mem_reverse, List.mem_map] at he2
      obtain ⟨kv2, hkv2, rfl⟩ := he2
      exact hk (List.mem_map.mpr ⟨kv2, hkv2, hek⟩)
    have hlen : st.lruCache.evictList.length = min N p.length := by
      rw [ih1]; simp [List.length_take]
    obtain ⟨a1, a2, _, a4⟩ :=
      lru.Add_fresh st.lruCache kv.1 kv.2 hkeys (by rw [hlen, ih2]; omega) (by omega)
    simp only [LRCache.SetHook]
    refine ⟨?_, by rw [a2, ih2], ?_⟩
    · rw [a1, ih1, ih2, take_cons_take]
      simp [toEntry]
    · rw [ih3, a4, hlen, ih2]
      by_cases hfull : N ≤ p.length
      · have hlast : st.lruCache.evictList.getLast? = (p.map toEntry)[p.length - N]? := by
          rw [ih1]
          have := getLast?_take_reverse N (p.map toEntry) hN (by simpa using hfull)
          simpa using this
        have hlt : p.length - N < (p.map Prod.fst).length := by simp; omega
        have e1 : min N p.length = N := by omega
        have e2 : min N (p ++ [kv]).length = N := by simp; omega
        have e3 : (p ++ [kv]).length - N = (p.length - N) + 1 := by simp; omega
        rw [if_pos e1, hlast, e1, e2, e3, List.map_append, List.map_singleton,
          take_succ_snoc _ _ _ hlt]
        simp [toEntry]
        have hlt2 : p.length - N < p.length := by omega
        exact ⟨p[p.length - N].2, List.getElem?_eq_getElem hlt2⟩
      · have e1 : ¬ min N p.length = N := by omega
        have e2 : min N (p ++ [kv]).length = p.length + 1 := by simp; omega
        have e3 : (p ++ [kv]).length - N = 0 := by simp; omega
        have e4 : p.length - N = 0 := by omega
        have e5 : min N p.length = p.length := by omega
        rw [if_neg e1, e2, e3, e4, e5]
        simp [List.replicate_succ']

/-- Claim C1. On a fresh cache of capacity `N ≥ 1`, whatever Redis connection `c` stands
behind it, a run of `M > N` `Set` calls with pairwise distinct keys returns false `N` times
and then true `M - N` times, so exactly `M - N` calls return true, and the keys handed to the
eviction hook are the first `M - N` keys inserted, in the order of their insertion. -/
theorem set_evicts_oldest_first {σ : Type} (c : Conn σ) (pool : σ) (redisPrefix : String)
    (N : Nat) (notifyRemove : Bool) (lr : LRCache σ) (kvs : List (String × Value))
    (hN : 1 ≤ N) (hnew : NewLRCache pool redisPrefix (N : Int) notifyRemove = .ok lr)
    (hd : (kvs.map Prod.fst).Nodup) (hM : N < kvs.length) :
    (LRCache.SetAll c lr kvs).1.map Prod.fst =
        List.replicate N false ++ List.replicate (kvs.length - N) true ∧
      ((LRCache.SetAll c lr kvs).1.map Prod.fst).count true = kvs.length - N ∧
      (LRCache.SetAll c lr kvs).1.filterMap Prod.snd =
        (kvs.map Prod.fst).take (kvs.length - N) := by
  have hfresh : lr.lruCache.size = N ∧ lr.lruCache.evictList = [] := by
    unfold NewLRCache lru.NewWithEvict at hnew
    have h0 : ¬ ((N : Int) ≤ 0) := by omega
    rw [if_neg h0] at hnew
    simp only [Except.ok.injEq] at hnew
    subst hnew
    simp
  obtain ⟨_, _, h3⟩ := SetAll_fresh c lr N hN hfresh.1 hfresh.2 kvs hd
  have e1 : min N kvs.length = N := by omega
  rw [h3, e1]
  refine ⟨?_, ?_, ?_⟩
  · simp [List.map_replicate, Function.comp_def]
  · simp [List.map_replicate, Function.comp_def, List.count_replicate]
  · have hfm : ∀ l : List String,
        (l.map (fun k => ((true, some k) : Bool × Option String))).filterMap Prod.snd = l := by
      intro l; induction l <;> simp [*]
    have hrep : ∀ n : Nat,
        (List.replicate n ((false, none) : Bool × Option String)).filterMap Prod.snd = [] := by
      intro n; induction n <;> simp [List.replicate_succ, *]
    rw [List.filterMap_append, hfm, hrep, List.nil_append]

theorem set_evicts_oldest_first_witness :
    (LRCache.SetAll redisUp
          { lruCache := { size := 2, evictList := [], notifyRemove := true },
            redisCache := { pool := [], redisPrefix := "rl_" } }
          [("a", Value.int 1), ("b", Value.int 2), ("c", Value.int 3)]).1.map Prod.fst =
        List.replicate 2 false ++ List.replicate (3 - 2) true ∧
      ((LRCache.SetAll redisUp
          { lruCache := { size := 2, evictList := [], notifyRemove := true },
            redisCache := { pool := [], redisPrefix := "rl_" } }
          [("a", Value.int 1), ("b", Value.int 2), ("c", Value.int 3)]).1.map
            Prod.fst).count true = 3 - 2 ∧
      (LRCache.SetAll redisUp
          { lruCache := { size := 2, evictList := [], notifyRemove := true },
            redisCache := { pool := [], redisPrefix := "rl_" } }
          [("a", Value.int 1), ("b", Value.int 2), ("c", Value.int 3)]).1.filterMap Prod.snd =
        ["a"] :=
  set_evicts_oldest_first redisUp [] "rl_" 2 true _
    [("a", Value.int 1), ("b", Value.int 2), ("c", Value.int 3)]
    (by decide) rfl (by decide) (by decide)

/-! ## Lemmas on `Get` -/

theorem lru.Contains_iff (c : lru.Cache) (key : String) :
    c.Contains key = true ↔ key ∈ c.Keys := by
  unfold lru.Cache.Contains lru.Cache.Keys
  cases h : lru.lookup key c.evictList with
  | none => simpa using lru.lookup_eq_none.mp h
  | some e =>
    simp only [Option.isSome_some, true_iff]
    exact List.mem_map.mpr ⟨e, (lru.lookup_some h).1, (lru.lookup_some h).2⟩

/-- A resident key is answered from the container. -/
theorem Get_resident {σ : Type} (c : Conn σ) (lr : LRCache σ) (key : String) (e : lru.entry)
    (h : lru.lookup key lr.lruCache.evictList = some e) :
    (LRCache.Get c lr key).1 = { v := e.value, fromRedis := false, err := none } ∧
    (LRCache.Get c lr key).2 =
      { lr with lruCache :=
          { lr.lruCache with evictList := e :: lru.unlink key lr.lruCache.evictList } } := by
  unfold LRCache.Get lru.Cache.Contains lru.Cache.Get
  simp [h, newLRCacheItem]

/-- A key that is not resident is answered by the adapter. -/
theorem Get_absent {σ : Type} (c : Conn σ) (lr : LRCache σ) (key : String)
    (h : lru.lookup key lr.lruCache.evictList = none) :
    LRCache.Get c lr key =
      if (lr.redisCache.Get c key).1.2 = none then
        (newLRCacheItem (lr.redisCache.Get c key).1.1 none true,
          { lr with redisCache := (lr.redisCache.Get c key).2 })
      else
        (newLRCacheItem Value.nil (lr.redisCache.Get c key).1.2 false,
          { lr with redisCache := (lr.redisCache.Get c key).2 }) := by
  unfold LRCache.Get lru.Cache.Contains
  simp [h]

/-- The adapter on a server that answers: the value under the prefixed key as a byte slice,
or nil, never an error, and the server as it was. -/
theorem redisUp_Get (rs : redisStorage Store) (key : String) :
    rs.Get redisUp key =
      (match Store.find (rs.redisPrefix ++ key) rs.pool with
        | some b => (Value.uint8s b, none)
        | none => (Value.nil, none), rs) := by
  unfold redisStorage.Get redisUp
  cases h : Store.find (rs.redisPrefix ++ key) rs.pool <;> simp [h]

theorem mem_take_not_mem_drop {α : Type} (l : List α) (d : Nat) (hd : l.Nodup) (x : α)
    (h : x ∈ l.take d) : x ∉ l.drop d := by
  have := List.take_append_drop d l
  rw [← this, List.nodup_append] at hd
  exact fun h2 => hd.2.2 h h2

/-- Claim C2. On a fresh cache of capacity `N ≥ 1` in front of a server that answers, after
`M > N` `Set` calls with pairwise distinct keys, `Get` on any of the first `M - N` keys gives
an item with `FromRedis() = true` and no error, and `Get` on any of the last `N` keys gives an
item with `FromRedis() = false` and no error (the run may also be shorter than `N`). -/
theorem get_after_sets_origin (pool : Store) (redisPrefix : String) (N : Nat)
    (notifyRemove : Bool) (lr : LRCache Store) (kvs : List (String × Value)) (key : String)
    (hN : 1 ≤ N) (hnew : NewLRCache pool redisPrefix (N : Int) notifyRemove = .ok lr)
    (hd : (kvs.map Prod.fst).Nodup) :
    (key ∈ (kvs.map Prod.fst).take (kvs.length - N) →
      (LRCache.Get redisUp (LRCache.SetAll redisUp lr kvs).2 key).1.FromRedis = true ∧
      (LRCache.Get redisUp (LRCache.SetAll redisUp lr kvs).2 key).1.Error = none) ∧
    (key ∈ (kvs.map Prod.fst).drop (kvs.length - N) →
      (LRCache.Get redisUp (LRCache.SetAll redisUp lr kvs).2 key).1.FromRedis = false ∧
      (LRCache.Get redisUp (LRCache.SetAll redisUp lr kvs).2 key).1.Error = none) := by
  have hfresh : lr.lruCache.size = N ∧ lr.lruCache.evictList = [] := by
    unfold NewLRCache lru.NewWithEvict at hnew
    have h0 : ¬ ((N : Int) ≤ 0) := by omega
    rw [if_neg h0] at hnew
    simp only [Except.ok.injEq] at hnew
    subst hnew
    simp
  obtain ⟨h1, _, _⟩ := SetAll_fresh redisUp lr N hN hfresh.1 hfresh.2 kvs hd
  generalize (LRCache.SetAll redisUp lr kvs).2 = st at h1 ⊢
  have hkeys : st.lruCache.Keys = ((kvs.map Prod.fst).drop (kvs.length - N)).reverse := by
    unfold lru.Cache.Keys
    rw [h1, List.take_reverse, List.map_reverse, List.length_map,
      ← List.map_drop, ← List.map_drop, List.map_map]
    rfl
  constructor
  · intro hk
    have hnot : key ∉ st.lruCache.Keys := by
      rw [hkeys, List.mem_reverse]
      exact mem_take_not_mem_drop _ _ hd _ hk
    have hl := lru.lookup_eq_none.mpr hnot
    rw [Get_absent _ _ _ hl, redisUp_Get]
    cases Store.find (st.redisCache.redisPrefix ++ key) st.redisCache.pool <;>
      simp [newLRCacheItem, LRCacheItem.FromRedis, LRCacheItem.Error]
  · intro hk
    have hin : key ∈ st.lruCache.Keys := by
      rw [hkeys, List.mem_reverse]; exact hk
    cases hl : lru.lookup key st.lruCache.evictList with
    | none => exact absurd hin (lru.lookup_eq_none.mp hl)
    | some e =>
      rw [(Get_resident redisUp st key e hl).1]
      simp [LRCacheItem.FromRedis, LRCacheItem.Error]

theorem get_after_sets_origin_witness :
    ((LRCache.Get redisUp (LRCache.SetAll redisUp demoFresh demoSets).2 "a").1.FromRedis = true ∧
      (LRCache.Get redisUp (LRCache.SetAll redisUp demoFresh demoSets).2 "a").1.Error = none) ∧
    ((LRCache.Get redisUp (LRCache.SetAll redisUp demoFresh demoSets).2 "c").1.FromRedis = false ∧
      (LRCache.Get redisUp (LRCache.SetAll redisUp demoFresh demoSets).2 "c").1.Error = none) :=
  ⟨(get_after_sets_origin [] "rl_" 2 true demoFresh demoSets "a" (by decide) rfl
      (by decide)).1 (by decide),
   (get_after_sets_origin [] "rl_" 2 true demoFresh demoSets "c" (by decide) rfl
      (by decide)).2 (by decide)⟩

/-! ## The gob round trip -/

namespace gob

theorem bigEndian_zero_cons (l : Bytes) : bigEndian (0 :: l) = bigEndian l := by
  simp [bigEndian]

theorem bigEndian_dropWhile (l : Bytes) :
    bigEndian (l.dropWhile (fun b => b = 0)) = bigEndian l := by
  induction l with
  | nil => rfl
  | cons b l ih =>
    by_cases hb : b = 0
    · subst hb; rw [bigEndian_zero_cons]; simpa [List.dropWhile] using ih
    · simp [List.dropWhile, hb]

theorem bigEndian_putUint64 (x : Nat) (hx : x < 2 ^ 64) : bigEndian (putUint64 x) = x := by
  simp only [bigEndian, putUint64, List.foldl]
  omega

theorem drop_takeWhile_length (p : Nat → Bool) (l : Bytes) :
    l.drop (l.takeWhile p).length = l.dropWhile p := by
  induction l with
  | nil => rfl
  | cons b l ih =>
    by_cases hb : p b = true
    · simp [List.takeWhile, List.dropWhile, hb, ih]
    · simp [List.takeWhile, List.dropWhile, hb]

theorem length_takeWhile_add (p : Nat → Bool) (l : Bytes) :
    (l.takeWhile p).length + (l.dropWhile p).length = l.length := by
  induction l with
  | nil => rfl
  | cons b l ih =>
    by_cases hb : p b = true
    · simp only [List.takeWhile, List.dropWhile, hb, List.length_cons]; omega
    · simp [List.takeWhile, List.dropWhile, hb]

/-- An unsigned integer of 64 bits is read back from what `encodeUint` wrote, and the
reader stops where the writer stopped. -/
theorem decodeUint_encodeUint (x : Nat) (hx : x < 2 ^ 64) (rest : Bytes) :
    decodeUint (encodeUint x ++ rest) = .ok (x, rest) := by
  unfold encodeUint
  by_cases h : x ≤ 0x7F
  · rw [if_pos h]
    simp [decodeUint, h]
  · rw [if_neg h]
    dsimp only
    have hlen := length_takeWhile_add (fun b => decide (b = 0)) (putUint64 x)
    have hdrop := drop_takeWhile_length (fun b => decide (b = 0)) (putUint64 x)
    have hbe := bigEndian_dropWhile (putUint64 x)
    rw [bigEndian_putUint64 x hx] at hbe
    have h8 : (putUint64 x).length = 8 := rfl
    have hne : ((putUint64 x).dropWhile (fun b => decide (b = 0))).length ≠ 0 := by
      intro h0
      rw [List.length_eq_zero] at h0
      rw [h0] at hbe
      simp [bigEndian] at hbe
      omega
    generalize hbc : ((putUint64 x).takeWhile (fun b => decide (b = 0))).length = bc at *
    generalize hdw : (putUint64 x).dropWhile (fun b => decide (b = 0)) = dw at *
    have hb : (bc + 256 - uint64Size) % 256 = 248 + bc := by
      simp only [uint64Size]; omega
    simp only [hdrop, List.cons_append, decodeUint, hb]
    have h1 : ¬ (248 + bc ≤ 0x7f) := by omega
    have h2 : ¬ (256 - (248 + bc) > uint64Size) := by simp only [uint64Size]; omega
    have h3 : ¬ ((dw ++ rest).length < 256 - (248 + bc)) := by
      simp only [List.length_append]; omega
    have h4 : 256 - (248 + bc) = dw.length := by omega
    rw [if_neg h1, if_neg h2, if_neg h3, h4]
    simp [hbe]

/-- A signed integer of 64 bits is read back from what `encodeInt` wrote. -/
theorem decodeInt_encodeInt (i : Int) (hlo : -2 ^ 63 ≤ i) (hhi : i < 2 ^ 63) (rest : Bytes) :
    decodeInt (encodeInt i ++ rest) = .ok (i, rest) := by
  unfold encodeInt decodeInt
  by_cases h : i < 0
  · rw [if_pos h, decodeUint_encodeUint _ (by omega)]
    simp only
    have h1 : ((((-i - 1) * 2) % 2 ^ 64).toNat + 1) % 2 ≠ 0 := by omega
    rw [if_pos h1]
    congr 2
    omega
  · rw [if_neg h, decodeUint_encodeUint _ (by omega)]
    simp only
    have h1 : ¬ ((i * 2 % 2 ^ 64).toNat % 2 ≠ 0) := by omega
    rw [if_neg h1]
    congr 2
    omega

end gob

namespace gob

theorem length_encodeUint_le (x : Nat) : (encodeUint x).length ≤ 9 := by
  unfold encodeUint
  split
  · simp
  · simp only [List.length_cons, List.length_drop]
    have h8 : (putUint64 x).length = 8 := rfl
    omega

theorem length_encodeInt_le (i : Int) : (encodeInt i).length ≤ 9 := by
  unfold encodeInt
  split <;> exact length_encodeUint_le _

theorem putUint64_bigEndian (c0 c1 c2 c3 c4 c5 c6 c7 : Nat) (h0 : c0 < 256) (h1 : c1 < 256)
    (h2 : c2 < 256) (h3 : c3 < 256) (h4 : c4 < 256) (h5 : c5 < 256) (h6 : c6 < 256)
    (h7 : c7 < 256) :
    putUint64 (bigEndian [c0, c1, c2, c3, c4, c5, c6, c7]) = [c0, c1, c2, c3, c4, c5, c6, c7] := by
  simp only [bigEndian, putUint64, List.foldl, List.cons.injEq, and_true]
  refine ⟨?_, ?_, ?_, ?_, ?_, ?_, ?_, ?_⟩ <;> omega

theorem floatBits_lt (u : Nat) : floatBits u < 2 ^ 64 := by
  simp only [floatBits, bigEndian, putUint64, List.reverse_cons, List.reverse_nil,
    List.nil_append, List.cons_append, List.foldl]
  omega

/-- Reversing the bytes twice gives the bit pattern back. -/
theorem floatBits_floatBits (u : Nat) (hu : u < 2 ^ 64) :
    bigEndian (putUint64 (floatBits u)).reverse = u := by
  have hrev : (putUint64 u).reverse =
      [u % 256, u / 2 ^ 8 % 256, u / 2 ^ 16 % 256, u / 2 ^ 24 % 256, u / 2 ^ 32 % 256,
        u / 2 ^ 40 % 256, u / 2 ^ 48 % 256, u / 2 ^ 56 % 256] := rfl
  unfold floatBits
  rw [hrev, putUint64_bigEndian _ _ _ _ _ _ _ _ (Nat.mod_lt _ (by decide))
    (Nat.mod_lt _ (by decide)) (Nat.mod_lt _ (by decide)) (Nat.mod_lt _ (by decide))
    (Nat.mod_lt _ (by decide)) (Nat.mod_lt _ (by decide)) (Nat.mod_lt _ (by decide))
    (Nat.mod_lt _ (by decide))]
  exact bigEndian_putUint64 u hu
/-- A message is opened again: the reader finds the type id it asks for, the zero delta,
and hands the payload to the instruction of the local type. -/
theorem decodeValue_message {α : Type} (id : Int) (payload : Bytes)
    (op : Bytes → Except GoError (α × Bytes)) (h0 : 0 ≤ id) (h1 : id < 2 ^ 63)
    (hlen : payload.length + 18 < 2 ^ 64) :
    decodeValue id op (message id payload) =
      match op payload with
      | .error e => .error e
      | .ok (x, _) => .ok x := by
  have hbody : (encodeInt id ++ encodeUint 0 ++ payload).length < 2 ^ 64 := by
    have := length_encodeInt_le id
    have := length_encodeUint_le 0
    simp only [List.length_append]
    omega
  unfold decodeValue decodeTypeSequence message
  dsimp only
  rw [decodeUint_encodeUint _ hbody]
  dsimp only
  rw [if_neg (by omega), List.take_length, List.append_assoc,
    decodeInt_encodeInt id (by omega) h1]
  dsimp only
  rw [if_pos (by omega : id ≥ 0)]
  dsimp only
  rw [if_neg (by simp)]
  unfold decodeSingle
  rw [decodeUint_encodeUint 0 (by omega)]
  dsimp only
  rw [if_neg (by simp)]

theorem DecodeString_Encode (s : Bytes) (hs : s.length < 2 ^ 63) :
    DecodeString (Encode (Value.string s)) = .ok s := by
  have hl := length_encodeUint_le s.length
  unfold DecodeString Encode
  rw [decodeValue_message tString _ _ (by unfold tString; omega) (by unfold tString; omega)
    (by simp only [List.length_append]; omega)]
  unfold decString
  rw [decodeUint_encodeUint _ (by omega)]
  simp

theorem DecodeInt32_Encode (n : Int) (hlo : -2 ^ 31 ≤ n) (hhi : n < 2 ^ 31) :
    DecodeInt32 (Encode (Value.int32 n)) = .ok n := by
  have hl := length_encodeInt_le n
  unfold DecodeInt32 Encode
  rw [decodeValue_message tInt _ _ (by unfold tInt; omega) (by unfold tInt; omega) (by omega)]
  unfold decInt32
  have := decodeInt_encodeInt n (by omega) (by omega) []
  rw [List.append_nil] at this
  rw [this]
  dsimp only
  rw [if_neg (by omega)]

theorem DecodeInt64_Encode (n : Int) (hlo : -2 ^ 63 ≤ n) (hhi : n < 2 ^ 63) :
    DecodeInt64 (Encode (Value.int64 n)) = .ok n := by
  have hl := length_encodeInt_le n
  unfold DecodeInt64 Encode
  rw [decodeValue_message tInt _ _ (by unfold tInt; omega) (by unfold tInt; omega) (by omega)]
  unfold decInt64
  have := decodeInt_encodeInt n hlo hhi []
  rw [List.append_nil] at this
  rw [this]

theorem DecodeInt_Encode (n : Int) (hlo : -2 ^ 63 ≤ n) (hhi : n < 2 ^ 63) :
    DecodeInt (Encode (Value.int n)) = .ok n := by
  have hl := length_encodeInt_le n
  unfold DecodeInt Encode
  rw [decodeValue_message tInt _ _ (by unfold tInt; omega) (by unfold tInt; omega) (by omega)]
  unfold decInt64
  have := decodeInt_encodeInt n hlo hhi []
  rw [List.append_nil] at this
  rw [this]

theorem DecodeFloat64_Encode (u : Nat) (hu : u < 2 ^ 64) :
    DecodeFloat64 (Encode (Value.float64 u)) = .ok u := by
  have hl := length_encodeUint_le (floatBits u)
  unfold DecodeFloat64 Encode
  rw [decodeValue_message tFloat _ _ (by unfold tFloat; omega) (by unfold tFloat; omega) (by omega)]
  unfold decFloat64
  have := decodeUint_encodeUint (floatBits u) (floatBits_lt u) []
  rw [List.append_nil] at this
  rw [this]
  dsimp only
  rw [floatBits_floatBits u hu]

end gob

/-! ## The container keeps one entry per key -/

namespace lru

theorem lookup_unlink_ne {k key : String} (h : k ≠ key) (es : List entry) :
    lookup k (unlink key es) = lookup k es := by
  induction es with
  | nil => rfl
  | cons e es ih =>
    simp only [unlink, lookup]
    by_cases h1 : e.key = key
    · have h2 : ¬ e.key = k := fun h3 => h (h3.symm.trans h1)
      rw [if_pos h1, if_neg h2]
    · rw [if_neg h1]
      simp only [lookup]
      by_cases h2 : e.key = k
      · rw [if_pos h2, if_pos h2]
      · rw [if_neg h2, if_neg h2]; exact ih

theorem keys_unlink_sublist (key : String) (es : List entry) :
    ((unlink key es).map entry.key).Sublist (es.map entry.key) := by
  induction es with
  | nil => simp [unlink]
  | cons e es ih =>
    simp only [unlink]
    split
    · simp
    · simpa using ih

theorem not_mem_keys_unlink (key : String) (es : List entry) (hd : (es.map entry.key).Nodup) :
    key ∉ (unlink key es).map entry.key := by
  induction es with
  | nil => simp [unlink]
  | cons e es ih =>
    simp only [List.map_cons, List.nodup_cons] at hd
    simp only [unlink]
    split
    · rename_i h; rw [← h]; exact hd.1
    · rename_i h
      simp only [List.map_cons, List.mem_cons, not_or]
      exact ⟨fun h2 => h h2.symm, ih hd.2⟩

theorem length_unlink {key : String} {es : List entry} {e : entry}
    (h : lookup key es = some e) : (unlink key es).length + 1 = es.length := by
  induction es with
  | nil => simp [lookup] at h
  | cons e1 es ih =>
    simp only [lookup] at h
    simp only [unlink]
    split
    · simp
    · rename_i h1; simp only [h1, if_false] at h; simp [ih h]

theorem length_unlink_le (key : String) (es : List entry) :
    (unlink key es).length ≤ es.length := by
  have := (keys_unlink_sublist key es).length_le
  simpa using this

theorem perm_unlink {key : String} {es : List entry} {e : entry}
    (h : lookup key es = some e) : (e :: unlink key es).Perm es := by
  induction es with
  | nil => simp [lookup] at h
  | cons e1 es ih =>
    simp only [lookup] at h
    simp only [unlink]
    split
    · rename_i h1; simp only [h1, if_true, Option.some.injEq] at h; rw [h]
    · rename_i h1; simp only [h1, if_false] at h
      exact (List.Perm.swap e1 e _).trans ((ih h).cons e1)

/-- In a list with one entry per key, dropping the last entry forgets its key and no other. -/
theorem lookup_dropLast (k : String) (es : List entry) (e : entry)
    (hd : (es.map entry.key).Nodup) (hl : es.getLast? = some e) :
    lookup k es.dropLast = if e.key = k then none else lookup k es := by
  induction es with
  | nil => simp at hl
  | cons e1 es ih =>
    cases es with
    | nil =>
      simp only [List.getLast?_singleton, Option.some.injEq] at hl
      subst hl
      by_cases h : e1.key = k <;> simp [lookup, h]
    | cons e2 es =>
      rw [List.getLast?_cons_cons] at hl
      simp only [List.map_cons, List.nodup_cons] at hd
      have hmem : e ∈ e2 :: es := List.mem_of_getLast?_eq_some hl
      have ih2 := ih (by simpa using hd.2) hl
      simp only [List.dropLast_cons₂, lookup] at ih2 ⊢
      by_cases h1 : e1.key = k
      · have h2 : ¬ e.key = k := by
          intro h3
          apply hd.1
          rw [h1, ← h3]
          exact List.mem_map.mpr ⟨e, hmem, rfl⟩ |> fun h => by simpa using h
        simp [h1, h2]
      · simp only [h1, if_false]
        exact ih2

end lru

namespace lru

theorem lookup_of_mem {es : List entry} {e : entry} (hd : (es.map entry.key).Nodup)
    (he : e ∈ es) : lookup e.key es = some e := by
  induction es with
  | nil => simp at he
  | cons e1 es ih =>
    simp only [List.map_cons, List.nodup_cons] at hd
    simp only [lookup]
    rcases List.mem_cons.mp he with h | h
    · subst h; simp
    · have hne : ¬ e1.key = e.key := by
        intro h2; apply hd.1; rw [h2]; exact List.mem_map.mpr ⟨e, h, rfl⟩
      rw [if_neg hne]; exact ih hd.2 h

theorem Get_WF (c : Cache) (key : String) (h : c.WF) :
    (c.Get key).2.WF ∧ (c.Get key).2.size = c.size ∧
      (c.Get key).2.notifyRemove = c.notifyRemove := by
  unfold Cache.Get
  cases hl : lookup key c.evictList with
  | none => exact ⟨h, rfl, rfl⟩
  | some e =>
    refine ⟨⟨?_, ?_, h.2.2⟩, rfl, rfl⟩
    · show (e.key :: (unlink key c.evictList).map entry.key).Nodup
      rw [List.nodup_cons, (lookup_some hl).2]
      exact ⟨not_mem_keys_unlink key _ h.1, h.1.sublist (keys_unlink_sublist key _)⟩
    · show (unlink key c.evictList).length + 1 ≤ c.size
      rw [length_unlink hl]; exact h.2.1

theorem Remove_WF (c : Cache) (key : String) (h : c.WF) :
    (c.Remove key).1.WF ∧ (c.Remove key).1.size = c.size ∧
      (c.Remove key).1.notifyRemove = c.notifyRemove := by
  unfold Cache.Remove
  cases hl : lookup key c.evictList with
  | none => exact ⟨h, rfl, rfl⟩
  | some e =>
    refine ⟨⟨h.1.sublist (keys_unlink_sublist key _), ?_, h.2.2⟩, rfl, rfl⟩
    exact Nat.le_trans (length_unlink_le key _) h.2.1

theorem Add_WF (c : Cache) (key : String) (value : Value) (h : c.WF) :
    (c.Add key value).1.WF ∧ (c.Add key value).1.size = c.size ∧
      (c.Add key value).1.notifyRemove = c.notifyRemove := by
  unfold Cache.Add
  cases hl : lookup key c.evictList with
  | some e =>
    refine ⟨⟨?_, ?_, h.2.2⟩, rfl, rfl⟩
    · show (key :: (unlink key c.evictList).map entry.key).Nodup
      rw [List.nodup_cons]
      exact ⟨not_mem_keys_unlink key _ h.1, h.1.sublist (keys_unlink_sublist key _)⟩
    · show (unlink key c.evictList).length + 1 ≤ c.size
      rw [length_unlink hl]; exact h.2.1
  | none =>
    have hk : key ∉ c.evictList.map entry.key := lookup_eq_none.mp hl
    have hnd : ((({ key := key, value := value } : entry) :: c.evictList).map entry.key).Nodup := by
      rw [List.map_cons, List.nodup_cons]; exact ⟨hk, h.1⟩
    dsimp only
    split
    · refine ⟨⟨?_, ?_, h.2.2⟩, rfl, rfl⟩
      · exact hnd.sublist ((List.dropLast_sublist _).map _)
      · show (({ key := key, value := value } : entry) :: c.evictList).dropLast.length ≤ c.size
        rw [List.length_dropLast, List.length_cons]
        have := h.2.1
        omega
    · rename_i hlen
      refine ⟨⟨hnd, ?_, h.2.2⟩, rfl, rfl⟩
      show (({ key := key, value := value } : entry) :: c.evictList).length ≤ c.size
      omega

/-- The key just added is resident with the value given. -/
theorem Add_lookup_self (c : Cache) (key : String) (value : Value) (h : c.WF) :
    lookup key (c.Add key value).1.evictList = some ⟨key, value⟩ := by
  unfold Cache.Add
  cases hl : lookup key c.evictList with
  | some e => simp [lookup]
  | none =>
    dsimp only
    split
    · cases hes : c.evictList with
      | nil =>
        rename_i hlen
        have := h.2.2
        simp [hes] at hlen
        omega
      | cons e es => simp [lookup]
    · simp [lookup]

/-- What `Add` of `key` does to another key `k`: its entry stays as it is and the entry
handed to the callback, if any, has another key; or its entry is the one handed out. -/
theorem Add_other (c : Cache) (key : String) (value : Value) (k : String) (h : c.WF)
    (hne : k ≠ key) :
    (lookup k (c.Add key value).1.evictList = lookup k c.evictList ∧
        ∀ e, (c.Add key value).2.1 = some e → e.key ≠ k) ∨
      (∃ e, (c.Add key value).2.1 = some e ∧ e.key = k ∧ lookup k c.evictList = some e ∧
        lookup k (c.Add key value).1.evictList = none) := by
  have hkk : ¬ key = k := fun h2 => hne h2.symm
  unfold Cache.Add
  cases hl : lookup key c.evictList with
  | some e0 =>
    left
    refine ⟨?_, by simp⟩
    show lookup k (⟨key, value⟩ :: unlink key c.evictList) = _
    simp only [lookup]
    rw [if_neg hkk, lookup_unlink_ne hne]
  | none =>
    dsimp only
    split
    · rename_i hlen
      cases hes : c.evictList with
      | nil =>
        have := h.2.2
        simp [hes] at hlen
        omega
      | cons e2 es =>
        have hlast : ∃ e, c.evictList.getLast? = some e := by
          rw [hes]; exact ⟨_, List.getLast?_eq_getLast _ (by simp)⟩
        obtain ⟨e, he⟩ := hlast
        have hdl := lookup_dropLast k c.evictList e h.1 he
        rw [hes] at hdl he
        simp only [List.dropLast_cons₂, List.getLast?_cons_cons, lookup, if_neg hkk]
        by_cases hek : e.key = k
        · right
          refine ⟨e, he, hek, ?_, ?_⟩
          · have hmem : e ∈ c.evictList := by
              rw [hes]; exact List.mem_of_getLast?_eq_some he
            have := lookup_of_mem h.1 hmem
            rw [hek, hes] at this
            simpa [lookup] using this
          · rw [if_pos hek] at hdl; simpa [lookup] using hdl
        · left
          refine ⟨?_, ?_⟩
          · rw [if_neg hek] at hdl; simpa [lookup] using hdl
          · intro e3 he3
            rw [he] at he3
            cases he3
            exact hek
    · left
      refine ⟨?_, by simp⟩
      simp only [lookup]
      rw [if_neg hkk]

end lru

/-! ## The server behind `redisUp` -/

theorem prefix_append_inj (p a b : String) : p ++ a = p ++ b ↔ a = b := by
  constructor
  · intro h
    have h2 := congrArg String.data h
    simp only [String.data_append, List.append_cancel_left_eq] at h2
    exact String.ext h2
  · intro h; rw [h]

theorem Store.find_erase_self (k : String) (s : Store) : Store.find k (Store.erase k s) = none := by
  induction s with
  | nil => rfl
  | cons kb s ih =>
    obtain ⟨k1, b⟩ := kb
    simp only [Store.erase]
    by_cases h : k1 = k
    · rw [if_pos h]; exact ih
    · rw [if_neg h]; simp only [Store.find]; rw [if_neg h]; exact ih

theorem Store.find_erase_ne {k k2 : String} (hne : k2 ≠ k) (s : Store) :
    Store.find k2 (Store.erase k s) = Store.find k2 s := by
  induction s with
  | nil => rfl
  | cons kb s ih =>
    obtain ⟨k1, b⟩ := kb
    simp only [Store.erase]
    by_cases h : k1 = k
    · have h2 : ¬ k1 = k2 := fun h3 => hne (h3.symm.trans h)
      rw [if_pos h]; simp only [Store.find]; rw [if_neg h2]; exact ih
    · rw [if_neg h]
      simp only [Store.find]
      by_cases h2 : k1 = k2
      · rw [if_pos h2, if_pos h2]
      · rw [if_neg h2, if_neg h2]; exact ih

/-- The eviction hook on a server that answers: the prefix stays, and the server holds what
the adapter sent under the prefixed key of the entry, and under every other key what it held. -/
theorem redisUp_notify (rs : redisStorage Store) (ev : Option lru.entry) (k2 : String) :
    (LRCache.notify redisUp rs ev).redisPrefix = rs.redisPrefix ∧
    Store.find k2 (LRCache.notify redisUp rs ev).pool =
      match ev with
      | some e =>
        if rs.redisPrefix ++ e.key = k2 then
          some (if e.value ≠ Value.nil then gob.Encode e.value else [])
        else Store.find k2 rs.pool
      | none => Store.find k2 rs.pool := by
  cases ev with
  | none => exact ⟨rfl, rfl⟩
  | some e =>
    simp only [LRCache.notify, LRCache.onEvict, redisStorage.Set, redisUp]
    refine ⟨by simp, ?_⟩
    simp only [ne_eq, not_true_eq_false, if_false, Store.find]
    by_cases h : rs.redisPrefix ++ e.key = k2
    · simp [h]
    · simp only [h, if_false]
      exact Store.find_erase_ne (fun h2 => h h2.symm) _

/-- The adapter's `Delete` on a server that answers: the prefix stays, the prefixed key is
gone, every other key is as it was. -/
theorem redisUp_Delete (rs : redisStorage Store) (key k2 : String) :
    (rs.Delete redisUp key).2.redisPrefix = rs.redisPrefix ∧
    Store.find k2 (rs.Delete redisUp key).2.pool =
      if rs.redisPrefix ++ key = k2 then none else Store.find k2 rs.pool := by
  simp only [redisStorage.Delete, redisUp]
  cases hf : Store.find (rs.redisPrefix ++ key) rs.pool with
  | none =>
    refine ⟨by simp, ?_⟩
    by_cases h : rs.redisPrefix ++ key = k2
    · subst h; simp [hf]
    · simp [h]
  | some b =>
    refine ⟨by simp, ?_⟩
    by_cases h : rs.redisPrefix ++ key = k2
    · subst h; simp [Store.find_erase_self]
    · simp [h, Store.find_erase_ne (fun h2 => h h2.symm)]

/-! ## What a call leaves as it was -/

/-- `Get` changes the order of the list at most: every key keeps its entry. -/
theorem Get_lookup {σ : Type} (c : Conn σ) (lr : LRCache σ) (key k : String) :
    lru.lookup k (LRCache.Get c lr key).2.lruCache.evictList =
      lru.lookup k lr.lruCache.evictList := by
  cases hl : lru.lookup key lr.lruCache.evictList with
  | none =>
    rw [Get_absent c lr key hl]
    split <;> rfl
  | some e =>
    rw [(Get_resident c lr key e hl).2]
    show lru.lookup k (e :: lru.unlink key lr.lruCache.evictList) = _
    simp only [lru.lookup]
    by_cases hk : k = key
    · subst hk
      rw [if_pos (lru.lookup_some hl).2, hl]
    · have h2 : ¬ e.key = k := fun h3 => hk (h3.symm.trans (lru.lookup_some hl).2)
      rw [if_neg h2, lru.lookup_unlink_ne hk]

theorem Get_lruCache {σ : Type} (c : Conn σ) (lr : LRCache σ) (key : String) :
    (LRCache.Get c lr key).2.lruCache = (lr.lruCache.Get key).2 := by
  cases hl : lru.lookup key lr.lruCache.evictList with
  | none =>
    rw [Get_absent c lr key hl]
    unfold lru.Cache.Get
    rw [hl]
    split <;> rfl
  | some e =>
    rw [(Get_resident c lr key e hl).2]
    unfold lru.Cache.Get
    rw [hl]

/-- On a server that answers, `Get` leaves the adapter and the server as they were. -/
theorem redisUp_Get_redisCache (lr : LRCache Store) (key : String) :
    (LRCache.Get redisUp lr key).2.redisCache = lr.redisCache := by
  cases hl : lru.lookup key lr.lruCache.evictList with
  | none =>
    rw [Get_absent redisUp lr key hl, redisUp_Get]
    split <;> rfl
  | some e =>
    rw [(Get_resident redisUp lr key e hl).2]

/-- `Delete` of `key` on a server that answers leaves every other key as it was, in the
container and on the server. -/
theorem redisUp_Delete_other (lr : LRCache Store) (key k : String) (hne : k ≠ key) :
    lru.lookup k (LRCache.Delete redisUp lr key).lruCache.evictList =
        lru.lookup k lr.lruCache.evictList ∧
      (LRCache.Delete redisUp lr key).redisCache.redisPrefix = lr.redisCache.redisPrefix ∧
      Store.find (lr.redisCache.redisPrefix ++ k) (LRCache.Delete redisUp lr key).redisCache.pool =
        Store.find (lr.redisCache.redisPrefix ++ k) lr.redisCache.pool := by
  have hpk : ¬ lr.redisCache.redisPrefix ++ key = lr.redisCache.redisPrefix ++ k :=
    fun h => hne ((prefix_append_inj _ _ _).mp h).symm
  unfold LRCache.Delete
  dsimp only
  have hd := redisUp_Delete (LRCache.notify redisUp lr.redisCache (lr.lruCache.Remove key).2) key
    (lr.redisCache.redisPrefix ++ k)
  have hn := redisUp_notify lr.redisCache (lr.lruCache.Remove key).2
    (lr.redisCache.redisPrefix ++ k)
  rw [hn.1] at hd
  refine ⟨?_, hd.1, ?_⟩
  · unfold lru.Cache.Remove
    cases hl : lru.lookup key lr.lruCache.evictList with
    | none => rfl
    | some e => exact lru.lookup_unlink_ne hne _
  · rw [hd.2, if_neg hpk, hn.2]
    unfold lru.Cache.Remove
    cases hl : lru.lookup key lr.lruCache.evictList with
    | none => rfl
    | some e =>
      dsimp only
      cases lr.lruCache.notifyRemove with
      | false => rfl
      | true =>
        have h2 : ¬ lr.redisCache.redisPrefix ++ e.key = lr.redisCache.redisPrefix ++ k := by
          rw [(lru.lookup_some hl).2]; exact hpk
        simp only [if_true]
        rw [if_neg h2]

/-- A value set under `key` stays what `Get` will find while the calls name other keys. -/
theorem Holds_step (lr : LRCache Store) (k : String) (v : Value) (call : Call)
    (h : lr.Holds k v) (hv : v ≠ Value.nil) (hcall : call.key ≠ k) :
    (LRCache.step redisUp lr call).Holds k v := by
  have hne : k ≠ call.key := fun h2 => hcall h2.symm
  cases call with
  | Set key val =>
    simp only [Call.key] at hne
    simp only [LRCache.step, LRCache.Set, LRCache.SetHook, LRCache.Holds]
    have hn := redisUp_notify lr.redisCache (lr.lruCache.Add key val).2.1
      (lr.redisCache.redisPrefix ++ k)
    refine ⟨(lru.Add_WF _ key val h.1).1, ?_⟩
    rw [hn.1, hn.2]
    rcases lru.Add_other lr.lruCache key val k h.1 hne with ⟨h1, h2⟩ | ⟨e, h1, h2, h3, h4⟩
    · rw [h1]
      rcases h.2 with h5 | ⟨h5, h6⟩
      · exact Or.inl h5
      · refine Or.inr ⟨h5, ?_⟩
        cases hev : (lr.lruCache.Add key val).2.1 with
        | none => exact h6
        | some e =>
          have h7 : ¬ lr.redisCache.redisPrefix ++ e.key = lr.redisCache.redisPrefix ++ k :=
            fun h8 => h2 e hev ((prefix_append_inj _ _ _).mp h8)
          simp only
          rw [if_neg h7]; exact h6
    · rcases h.2 with h5 | ⟨h5, _⟩
      · rw [h5] at h3
        cases h3
        refine Or.inr ⟨h4, ?_⟩
        rw [h1]
        simp [hv]
      · rw [h5] at h3; cases h3
  | Get key =>
    simp only [LRCache.step, LRCache.Holds]
    rw [Get_lookup, redisUp_Get_redisCache, Get_lruCache]
    exact ⟨(lru.Get_WF _ key h.1).1, h.2⟩
  | Delete key =>
    simp only [Call.key] at hne
    simp only [LRCache.step, LRCache.Holds]
    obtain ⟨d1, d2, d3⟩ := redisUp_Delete_other lr key k hne
    rw [d1, d2, d3]
    refine ⟨?_, h.2⟩
    exact (lru.Remove_WF _ key h.1).1

theorem Holds_run (lr : LRCache Store) (k : String) (v : Value) (calls : List Call)
    (h : lr.Holds k v) (hv : v ≠ Value.nil) (hcalls : ∀ call ∈ calls, call.key ≠ k) :
    (LRCache.run redisUp lr calls).Holds k v := by
  induction calls generalizing lr with
  | nil => exact h
  | cons call rest ih =>
    simp only [LRCache.run]
    exact ih _ (Holds_step lr k v call h hv (hcalls call (List.mem_cons_self _ _)))
      (fun c hc => hcalls c (List.mem_cons_of_mem _ hc))

theorem Holds_Set (lr : LRCache Store) (k : String) (v : Value) (h : lr.lruCache.WF) :
    (LRCache.Set redisUp lr k v).2.Holds k v :=
  ⟨(lru.Add_WF _ k v h).1, Or.inl (lru.Add_lookup_self _ k v h)⟩

/-! ## The typed accessors -/

theorem isGob_uint8s (b : Bytes) (fr : Bool) (err : Option GoError) :
    LRCacheItem.IsGob { v := Value.uint8s b, fromRedis := fr, err := err } = true := by
  simp [LRCacheItem.IsGob, reflectTypeString]

/-- On a scalar in its native form the accessor of its type returns it. -/
theorem accessor_native (v : Value) (fr : Bool) (err : Option GoError)
    (hs : v.isScalar = true) : accessorYields { v := v, fromRedis := fr, err := err } v := by
  cases v with
  | nil => simp [Value.isScalar] at hs
  | bool b => simp [Value.isScalar] at hs
  | uint8s b => simp [Value.isScalar] at hs
  | pointer elem wire => simp [Value.isScalar] at hs
  | string s =>
    simp [accessorYields, LRCacheItem.StringVal, LRCacheItem.Value, LRCacheItem.IsGob,
      reflectTypeString, assertString]
  | int32 n =>
    simp [accessorYields, LRCacheItem.Int32Val, LRCacheItem.Value, LRCacheItem.IsGob,
      reflectTypeString, assertInt32]
  | int64 n =>
    simp [accessorYields, LRCacheItem.Int64Val, LRCacheItem.Value, LRCacheItem.IsGob,
      reflectTypeString, assertInt64]
  | int n =>
    simp [accessorYields, LRCacheItem.IntVal, LRCacheItem.Value, LRCacheItem.IsGob,
      reflectTypeString, assertInt]
  | float64 u =>
    simp [accessorYields, LRCacheItem.Float64Val, LRCacheItem.Value, LRCacheItem.IsGob,
      reflectTypeString, assertFloat64]

/-- On the encoding of a scalar the accessor of its type decodes it: `decode(encode(v)) = v`. -/
theorem accessor_gob (v : Value) (fr : Bool) (err : Option GoError)
    (hs : v.isScalar = true) (hv : v.WF) :
    accessorYields { v := Value.uint8s (gob.Encode v), fromRedis := fr, err := err } v := by
  cases v with
  | nil => simp [Value.isScalar] at hs
  | bool b => simp [Value.isScalar] at hs
  | uint8s b => simp [Value.isScalar] at hs
  | pointer elem wire => simp [Value.isScalar] at hs
  | string s =>
    simp only [Value.WF] at hv
    simp only [accessorYields, LRCacheItem.StringVal, LRCacheItem.Value, isGob_uint8s,
      assertUint8s, gob.DecodeString_Encode s hv.1]
    simp
  | int32 n =>
    simp only [Value.WF] at hv
    simp only [accessorYields, LRCacheItem.Int32Val, LRCacheItem.Value, isGob_uint8s,
      assertUint8s, gob.DecodeInt32_Encode n hv.1 hv.2]
    simp
  | int64 n =>
    simp only [Value.WF] at hv
    simp only [accessorYields, LRCacheItem.Int64Val, LRCacheItem.Value, isGob_uint8s,
      assertUint8s, gob.DecodeInt64_Encode n hv.1 hv.2]
    simp
  | int n =>
    simp only [Value.WF] at hv
    simp only [accessorYields, LRCacheItem.IntVal, LRCacheItem.Value, isGob_uint8s,
      assertUint8s, gob.DecodeInt_Encode n hv.1 hv.2]
    simp
  | float64 u =>
    simp only [Value.WF] at hv
    simp only [accessorYields, LRCacheItem.Float64Val, LRCacheItem.Value, isGob_uint8s,
      assertUint8s, gob.DecodeFloat64_Encode u hv]
    simp

/-- What `Get` returns for a key whose value is held: the value itself from the container,
or its encoding from the server. -/
theorem Get_of_Holds (lr : LRCache Store) (key : String) (v : Value) (h : lr.Holds key v) :
    (lr.lruCache.Contains key = true →
      (LRCache.Get redisUp lr key).1 = { v := v, fromRedis := false, err := none }) ∧
    (lr.lruCache.Contains key = false →
      (LRCache.Get redisUp lr key).1 =
        { v := Value.uint8s (gob.Encode v), fromRedis := true, err := none }) := by
  rcases h.2 with h1 | ⟨h1, h2⟩
  · constructor
    · intro _; exact (Get_resident redisUp lr key _ h1).1
    · intro hc; simp [lru.Cache.Contains, h1] at hc
  · constructor
    · intro hc; simp [lru.Cache.Contains, h1] at hc
    · intro _
      rw [Get_absent redisUp lr key h1, redisUp_Get, h2]
      simp [newLRCacheItem]

/-- Claim C3. Round trip through Redis, on a server that answers: after `Set(key, v)` with a
scalar `v` of one of the five supported types, and after any calls on other keys, `Get(key)`
gives `v` itself with `FromRedis() = false` while the key is resident and the encoding of `v`
with `FromRedis() = true` once the key was evicted; in both cases the accessor for the type
of `v` returns `v` and no error, and it does so on the encoding: `decode(encode(v)) = v`. -/
theorem round_trip_through_redis (lr : LRCache Store) (key : String) (v : Value)
    (calls : List Call) (hwf : lr.lruCache.WF) (hs : v.isScalar = true) (hv : v.WF)
    (hcalls : ∀ call ∈ calls, call.key ≠ key) :
    ((LRCache.run redisUp (LRCache.Set redisUp lr key v).2 calls).lruCache.Contains key = true →
      (LRCache.Get redisUp (LRCache.run redisUp (LRCache.Set redisUp lr key v).2 calls) key).1 =
        { v := v, fromRedis := false, err := none }) ∧
    ((LRCache.run redisUp (LRCache.Set redisUp lr key v).2 calls).lruCache.Contains key = false →
      (LRCache.Get redisUp (LRCache.run redisUp (LRCache.Set redisUp lr key v).2 calls) key).1 =
        { v := Value.uint8s (gob.Encode v), fromRedis := true, err := none }) ∧
    accessorYields
      (LRCache.Get redisUp (LRCache.run redisUp (LRCache.Set redisUp lr key v).2 calls) key).1 v ∧
    accessorYields { v := Value.uint8s (gob.Encode v), fromRedis := true, err := none } v := by
  have hnil : v ≠ Value.nil := by
    intro h; subst h; simp [Value.isScalar] at hs
  have hH := Holds_run _ key v calls (Holds_Set lr key v hwf) hnil hcalls
  obtain ⟨g1, g2⟩ := Get_of_Holds _ key v hH
  refine ⟨g1, g2, ?_, accessor_gob v true none hs hv⟩
  cases hc : (LRCache.run redisUp (LRCache.Set redisUp lr key v).2 calls).lruCache.Contains key with
  | true => rw [g1 hc]; exact accessor_native v false none hs
  | false => rw [g2 hc]; exact accessor_gob v true none hs hv

theorem round_trip_through_redis_witness :
    (LRCache.run redisUp (LRCache.Set redisUp demoFresh "a" (Value.int 1)).2
        demoCalls).lruCache.Contains "a" = false ∧
    (LRCache.Get redisUp (LRCache.run redisUp (LRCache.Set redisUp demoFresh "a" (Value.int 1)).2
        demoCalls) "a").1 =
      { v := Value.uint8s (gob.Encode (Value.int 1)), fromRedis := true, err := none } ∧
    (LRCache.Get redisUp (LRCache.run redisUp (LRCache.Set redisUp demoFresh "a" (Value.int 1)).2
        demoCalls) "a").1.IntVal = (1, none) :=
  ⟨by decide,
   (round_trip_through_redis demoFresh "a" (Value.int 1) demoCalls (by decide) rfl (by decide)
      (by decide)).2.1 (by decide),
   (round_trip_through_redis demoFresh "a" (Value.int 1) demoCalls (by decide) rfl (by decide)
      (by decide)).2.2.1⟩

/-! ## The read path -/

theorem redisDown_Get (rs : redisStorage Unit) (key : String) :
    (rs.Get redisDown key).1 =
      (Value.nil, some (GoError.New "dial tcp: lookup loc22alhost: no such host")) := by
  simp [redisStorage.Get, redisDown]

/-- Claim C4. For a key that is not resident, the item `Get` returns follows from the answer
of the server alone: data gives an item with these bytes, no error and `FromRedis() = true`;
the nil reply (`redis.ErrNil`) gives a nil value and no error; any other error gives that
error and a nil value. So an absent key and a failed lookup differ in `Error()`, and with no
server behind the address every `Get` of a key that is not resident has an error. -/
theorem get_nonresident_follows_remote {σ : Type} (c : Conn σ) (lr : LRCache σ) (key : String)
    (hnr : lr.lruCache.Contains key = false) :
    ((c.GET lr.redisCache.pool (lr.redisCache.redisPrefix ++ key)).1.2 = none →
      (LRCache.Get c lr key).1 =
        { v := Value.uint8s (c.GET lr.redisCache.pool (lr.redisCache.redisPrefix ++ key)).1.1,
          fromRedis := true, err := none }) ∧
    ((c.GET lr.redisCache.pool (lr.redisCache.redisPrefix ++ key)).1.2 = some GoError.ErrNil →
      (LRCache.Get c lr key).1.Value = Value.nil ∧ (LRCache.Get c lr key).1.Error = none) ∧
    (∀ e, (c.GET lr.redisCache.pool (lr.redisCache.redisPrefix ++ key)).1.2 = some e →
      e ≠ GoError.ErrNil →
      (LRCache.Get c lr key).1.Value = Value.nil ∧ (LRCache.Get c lr key).1.Error = some e) ∧
    (∀ l : LRCache Unit, l.lruCache.Contains key = false →
      (LRCache.Get redisDown l key).1.Value = Value.nil ∧
      (LRCache.Get redisDown l key).1.Error ≠ none) := by
  have hl : lru.lookup key lr.lruCache.evictList = none := by
    unfold lru.Cache.Contains at hnr
    cases h : lru.lookup key lr.lruCache.evictList with
    | none => rfl
    | some e => rw [h] at hnr; simp at hnr
  rw [Get_absent c lr key hl]
  refine ⟨?_, ?_, ?_, ?_⟩
  · intro h
    simp [redisStorage.Get, h, newLRCacheItem]
  · intro h
    simp [redisStorage.Get, h, newLRCacheItem, LRCacheItem.Value, LRCacheItem.Error]
  · intro e h hne
    simp [redisStorage.Get, h, hne, newLRCacheItem, LRCacheItem.Value, LRCacheItem.Error]
  · intro l hnl
    have hl2 : lru.lookup key l.lruCache.evictList = none := by
      unfold lru.Cache.Contains at hnl
      cases h : lru.lookup key l.lruCache.evictList with
      | none => rfl
      | some e => rw [h] at hnl; simp at hnl
    rw [Get_absent redisDown l key hl2, redisDown_Get]
    simp [newLRCacheItem, LRCacheItem.Value, LRCacheItem.Error]

theorem get_nonresident_follows_remote_witness :
    (LRCache.Get redisUp demoEvicted "a").1 =
        { v := Value.uint8s [3, 4, 0, 2], fromRedis := true, err := none } ∧
      ((LRCache.Get redisUp demoEvicted "z").1.Value = Value.nil ∧
        (LRCache.Get redisUp demoEvicted "z").1.Error = none) ∧
      ((LRCache.Get redisDown demoDown "a").1.Value = Value.nil ∧
        (LRCache.Get redisDown demoDown "a").1.Error ≠ none) :=
  ⟨(get_nonresident_follows_remote redisUp demoEvicted "a" (by decide)).1 (by decide),
   (get_nonresident_follows_remote redisUp demoEvicted "z" (by decide)).2.1 (by decide),
   (get_nonresident_follows_remote redisUp demoEvicted "a" (by decide)).2.2.2 demoDown
      (by decide)⟩

theorem pointer_name_ne (elem : String) (name : String) (h : name.data.head? ≠ some '*') :
    ("*" ++ elem) ≠ name := by
  intro h2
  apply h
  rw [← h2]
  simp [String.data_append]

/-- On a nil value every typed accessor returns the zero value of its type and no error. -/
theorem accessors_of_nil (item : LRCacheItem) (h : item.Value = Value.nil) :
    item.StringVal = ([], none) ∧ item.Int32Val = (0, none) ∧ item.Int64Val = (0, none) ∧
      item.IntVal = (0, none) ∧ item.Float64Val = (0, none) := by
  obtain ⟨v, fr, err⟩ := item
  simp only [LRCacheItem.Value] at h
  subst h
  simp [LRCacheItem.StringVal, LRCacheItem.Int32Val, LRCacheItem.Int64Val,
    LRCacheItem.IntVal, LRCacheItem.Float64Val, LRCacheItem.Value]

/-- Claim C5. The typed accessors on a value that is not a byte slice: a nil value gives the
zero value of the type and no error; a value of the type of the accessor is returned with no
error; a value of any other type gives the zero value and the error of the mismatch. -/
theorem accessor_resolution (item : LRCacheItem) :
    (item.Value = Value.nil →
      item.StringVal = ([], none) ∧ item.Int32Val = (0, none) ∧ item.Int64Val = (0, none) ∧
        item.IntVal = (0, none) ∧ item.Float64Val = (0, none)) ∧
    (item.Value ≠ Value.nil → item.Value.isBytes = false →
      item.StringVal =
        (match item.Value with
          | .string s => (s, none)
          | _ => ([], some (GoError.New "value is not a string"))) ∧
      item.Int32Val =
        (match item.Value with
          | .int32 n => (n, none)
          | _ => (0, some (GoError.New "value is not a int32"))) ∧
      item.Int64Val =
        (match item.Value with
          | .int64 n => (n, none)
          | _ => (0, some (GoError.New "value is not a int64"))) ∧
      item.IntVal =
        (match item.Value with
          | .int n => (n, none)
          | _ => (0, some (GoError.New "value is not a int"))) ∧
      item.Float64Val =
        (match item.Value with
          | .float64 bits => (bits, none)
          | _ => (0, some (GoError.New "value is not a float64")))) := by
  refine ⟨accessors_of_nil item, ?_⟩
  obtain ⟨v, fr, err⟩ := item
  · intro hnil hb
    simp only [LRCacheItem.Value] at hnil hb
    cases v with
    | nil => exact absurd rfl hnil
    | uint8s b => simp [Value.isBytes] at hb
    | pointer elem wire =>
      have q1 := pointer_name_ne elem "string" (by decide)
      have q2 := pointer_name_ne elem "int32" (by decide)
      have q3 := pointer_name_ne elem "int64" (by decide)
      have q4 := pointer_name_ne elem "int" (by decide)
      have q5 := pointer_name_ne elem "float64" (by decide)
      have q6 := pointer_name_ne elem "[]uint8" (by decide)
      simp [LRCacheItem.StringVal, LRCacheItem.Int32Val, LRCacheItem.Int64Val,
        LRCacheItem.IntVal, LRCacheItem.Float64Val, LRCacheItem.Value, LRCacheItem.IsGob,
        reflectTypeString, q1, q2, q3, q4, q5, q6]
    | string s =>
      simp [LRCacheItem.StringVal, LRCacheItem.Int32Val, LRCacheItem.Int64Val,
        LRCacheItem.IntVal, LRCacheItem.Float64Val, LRCacheItem.Value, LRCacheItem.IsGob,
        reflectTypeString, assertString]
    | int32 n =>
      simp [LRCacheItem.StringVal, LRCacheItem.Int32Val, LRCacheItem.Int64Val,
        LRCacheItem.IntVal, LRCacheItem.Float64Val, LRCacheItem.Value, LRCacheItem.IsGob,
        reflectTypeString, assertInt32]
    | int64 n =>
      simp [LRCacheItem.StringVal, LRCacheItem.Int32Val, LRCacheItem.Int64Val,
        LRCacheItem.IntVal, LRCacheItem.Float64Val, LRCacheItem.Value, LRCacheItem.IsGob,
        reflectTypeString, assertInt64]
    | int n =>
      simp [LRCacheItem.StringVal, LRCacheItem.Int32Val, LRCacheItem.Int64Val,
        LRCacheItem.IntVal, LRCacheItem.Float64Val, LRCacheItem.Value, LRCacheItem.IsGob,
        reflectTypeString, assertInt]
    | float64 u =>
      simp [LRCacheItem.StringVal, LRCacheItem.Int32Val, LRCacheItem.Int64Val,
        LRCacheItem.IntVal, LRCacheItem.Float64Val, LRCacheItem.Value, LRCacheItem.IsGob,
        reflectTypeString, assertFloat64]
    | bool b =>
      simp [LRCacheItem.StringVal, LRCacheItem.Int32Val, LRCacheItem.Int64Val,
        LRCacheItem.IntVal, LRCacheItem.Float64Val, LRCacheItem.Value, LRCacheItem.IsGob,
        reflectTypeString]

/-! ## The values in the container -/

theorem lru.unlink_sublist (key : String) (es : List lru.entry) :
    (lru.unlink key es).Sublist es := by
  induction es with
  | nil => simp [lru.unlink]
  | cons e es ih =>
    simp only [lru.unlink]
    split
    · simp
    · exact ih.cons₂ e

theorem lru.Add_mem (c : lru.Cache) (key : String) (value : Value) (e : lru.entry)
    (h : e ∈ (c.Add key value).1.evictList) : e = ⟨key, value⟩ ∨ e ∈ c.evictList := by
  unfold lru.Cache.Add at h
  cases hl : lru.lookup key c.evictList with
  | some e0 =>
    rw [hl] at h
    rcases List.mem_cons.mp h with h1 | h1
    · exact Or.inl h1
    · exact Or.inr ((lru.unlink_sublist key _).subset h1)
  | none =>
    rw [hl] at h
    dsimp only at h
    split at h
    · exact List.mem_cons.mp ((List.dropLast_sublist _).subset h)
    · exact List.mem_cons.mp h

theorem lru.Remove_mem (c : lru.Cache) (key : String) (e : lru.entry)
    (h : e ∈ (c.Remove key).1.evictList) : e ∈ c.evictList := by
  unfold lru.Cache.Remove at h
  cases hl : lru.lookup key c.evictList with
  | some e0 => rw [hl] at h; exact (lru.unlink_sublist key _).subset h
  | none => rw [hl] at h; exact h

theorem lru.Get_perm (c : lru.Cache) (key : String) :
    (c.Get key).2.evictList.Perm c.evictList := by
  unfold lru.Cache.Get
  cases hl : lru.lookup key c.evictList with
  | some e => exact lru.perm_unlink hl
  | none => exact List.Perm.refl _

/-- A property of the values given to `Set` holds of every resident value. -/
theorem step_values {σ : Type} (c : Conn σ) (P : Value → Prop) (lr : LRCache σ) (call : Call)
    (h0 : ∀ e ∈ lr.lruCache.evictList, P e.value) (hset : ∀ k v, call = Call.Set k v → P v) :
    ∀ e ∈ (LRCache.step c lr call).lruCache.evictList, P e.value := by
  intro e he
  cases call with
  | Set key val =>
    simp only [LRCache.step, LRCache.Set, LRCache.SetHook] at he
    rcases lru.Add_mem _ key val e he with h1 | h1
    · rw [h1]; exact hset key val rfl
    · exact h0 e h1
  | Get key =>
    simp only [LRCache.step] at he
    rw [Get_lruCache] at he
    exact h0 e ((lru.Get_perm _ key).subset he)
  | Delete key =>
    simp only [LRCache.step, LRCache.Delete] at he
    exact h0 e (lru.Remove_mem _ key e he)

theorem run_values {σ : Type} (c : Conn σ) (P : Value → Prop) (lr : LRCache σ)
    (calls : List Call) (h0 : ∀ e ∈ lr.lruCache.evictList, P e.value)
    (hsets : ∀ k v, Call.Set k v ∈ calls → P v) :
    ∀ e ∈ (LRCache.run c lr calls).lruCache.evictList, P e.value := by
  induction calls generalizing lr with
  | nil => exact h0
  | cons call rest ih =>
    simp only [LRCache.run]
    apply ih
    · exact step_values c P lr call h0
        (fun k v hc => hsets k v (by rw [hc]; exact List.mem_cons_self _ _))
    · exact fun k v hm => hsets k v (List.mem_cons_of_mem _ hm)

theorem SetAll_eq_run {σ : Type} (c : Conn σ) (lr : LRCache σ) (kvs : List (String × Value)) :
    (LRCache.SetAll c lr kvs).2 = LRCache.run c lr (kvs.map (fun kv => Call.Set kv.1 kv.2)) := by
  induction kvs generalizing lr with
  | nil => rfl
  | cons kv rest ih =>
    simp only [LRCache.SetAll, List.map_cons, LRCache.run, LRCache.step, LRCache.Set]
    exact ih _

theorem NewLRCache_empty {σ : Type} (pool : σ) (redisPrefix : String) (size : Int)
    (notifyRemove : Bool) (lr : LRCache σ)
    (hnew : NewLRCache pool redisPrefix size notifyRemove = .ok lr) :
    lr.lruCache.evictList = [] ∧ (lr.lruCache.size : Int) = size ∧ 1 ≤ lr.lruCache.size := by
  unfold NewLRCache lru.NewWithEvict at hnew
  by_cases h0 : size ≤ 0
  · rw [if_pos h0] at hnew; simp at hnew
  · rw [if_neg h0] at hnew
    simp only [Except.ok.injEq] at hnew
    subst hnew
    simp only [true_and]
    omega

/-- Whatever the server answers, an item from the server carries a byte slice or nothing,
and an item from the container carries the resident value. -/
theorem Get_item {σ : Type} (c : Conn σ) (lr : LRCache σ) (key : String) :
    (∃ e ∈ lr.lruCache.evictList,
        (LRCache.Get c lr key).1 = { v := e.value, fromRedis := false, err := none }) ∨
      (lr.lruCache.Contains key = false ∧
        ((∃ b, (LRCache.Get c lr key).1 =
            { v := Value.uint8s b, fromRedis := true, err := none }) ∨
          (LRCache.Get c lr key).1 = { v := Value.nil, fromRedis := true, err := none } ∨
          (∃ err, err ≠ GoError.ErrNil ∧ (LRCache.Get c lr key).1 =
            { v := Value.nil, fromRedis := false, err := some err }))) := by
  cases hl : lru.lookup key lr.lruCache.evictList with
  | some e =>
    exact Or.inl ⟨e, (lru.lookup_some hl).1, (Get_resident c lr key e hl).1⟩
  | none =>
    right
    refine ⟨by simp [lru.Cache.Contains, hl], ?_⟩
    rw [Get_absent c lr key hl]
    cases hr : (c.GET lr.redisCache.pool (lr.redisCache.redisPrefix ++ key)).1.2 with
    | none =>
      left
      exact ⟨(c.GET lr.redisCache.pool (lr.redisCache.redisPrefix ++ key)).1.1,
        by simp [redisStorage.Get, hr, newLRCacheItem]⟩
    | some err =>
      right
      by_cases he : err = GoError.ErrNil
      · left; subst he; simp [redisStorage.Get, hr, newLRCacheItem]
      · right
        exact ⟨err, he, by simp [redisStorage.Get, hr, he, newLRCacheItem]⟩

/-- Where the test of `IsGob` on the type of the value does agree with the origin of the
item: on a cache that started fresh and on which no `Set` was given a byte slice, whatever
the calls made and whatever the server answered, an item returned by `Get` that carries a
value has `IsGob()` equal to `FromRedis()`. -/
theorem isGob_eq_fromRedis {σ : Type} (c : Conn σ) (pool : σ) (redisPrefix : String)
    (size : Int) (notifyRemove : Bool) (lr : LRCache σ) (calls : List Call) (key : String)
    (hnew : NewLRCache pool redisPrefix size notifyRemove = .ok lr)
    (hsets : ∀ call ∈ calls, call.setsBytes = false)
    (hval : (LRCache.Get c (LRCache.run c lr calls) key).1.Value ≠ Value.nil) :
    (LRCache.Get c (LRCache.run c lr calls) key).1.IsGob =
      (LRCache.Get c (LRCache.run c lr calls) key).1.FromRedis := by
  have hinv := run_values c (fun v => v.isBytes = false) lr calls
    (by rw [(NewLRCache_empty pool redisPrefix size notifyRemove lr hnew).1]; simp)
    (fun k v hm => hsets (Call.Set k v) hm)
  rcases Get_item c (LRCache.run c lr calls) key with ⟨e, he, h⟩ | ⟨_, ⟨b, h⟩ | h | ⟨err, _, h⟩⟩
  · rw [h] at hval ⊢
    have hb := hinv e he
    simp only [LRCacheItem.Value] at hval
    cases hv : e.value <;> rw [hv] at hb hval <;>
      simp_all [LRCacheItem.IsGob, LRCacheItem.FromRedis, reflectTypeString, Value.isBytes]
    rename_i elem wire
    exact pointer_name_ne elem "[]uint8" (by decide)
  · rw [h]; simp [LRCacheItem.IsGob, LRCacheItem.FromRedis, reflectTypeString]
  · rw [h] at hval; simp [LRCacheItem.Value] at hval
  · rw [h] at hval; simp [LRCacheItem.Value] at hval

theorem isGob_eq_fromRedis_witness :
    (LRCache.Get redisUp (LRCache.run redisUp demoFresh demoCalls) "b").1.Value ≠ Value.nil ∧
    (LRCache.Get redisUp (LRCache.run redisUp demoFresh demoCalls) "b").1.IsGob =
      (LRCache.Get redisUp (LRCache.run redisUp demoFresh demoCalls) "b").1.FromRedis :=
  ⟨by decide,
   isGob_eq_fromRedis redisUp [] "rl_" 2 true demoFresh demoCalls "b" rfl (by decide)
     (by decide)⟩

/-- Claim C6, which the code breaks. The comment on `IsGob` says it is true if the value was
fetched from Redis, and the claim that it is true exactly then; the code looks at the type of
the value alone. After `Set("k", []byte{1, 2, 3})` the resident value is that byte slice, so
`Get("k")` gives an item that carries a value with `IsGob() = true` and
`FromRedis() = false`. -/
theorem isGob_without_redis :
    (LRCache.Get redisUp (LRCache.Set redisUp demoFresh "k" (Value.uint8s [1, 2, 3])).2
        "k").1.Value ≠ Value.nil ∧
    (LRCache.Get redisUp (LRCache.Set redisUp demoFresh "k" (Value.uint8s [1, 2, 3])).2
        "k").1.IsGob = true ∧
    (LRCache.Get redisUp (LRCache.Set redisUp demoFresh "k" (Value.uint8s [1, 2, 3])).2
        "k").1.FromRedis = false := by
  decide

/-- On that resident byte slice `StringVal` takes the path for values from Redis: it hands the
bytes to the gob decoder and returns the error of the decoder, not the error of a value that
is not a string. -/
theorem stringVal_decodes_resident_bytes :
    (LRCache.Get redisUp (LRCache.Set redisUp demoFresh "k" (Value.uint8s [1, 2, 3])).2
        "k").1.StringVal =
      ([], some (GoError.New "gob: decoding into local type, received remote type")) := by
  decide

/-- Claim C7, as amended. An item of `Get` whose error is set carries no value, and each
typed accessor returns on it the zero value of its type and a nil error: the accessors do
not read the error of the item, which `Error()` alone reports. -/
theorem accessors_ignore_item_error {σ : Type} (c : Conn σ) (lr : LRCache σ) (key : String)
    (herr : (LRCache.Get c lr key).1.Error ≠ none) :
    (LRCache.Get c lr key).1.Value = Value.nil ∧
      (LRCache.Get c lr key).1.StringVal = ([], none) ∧
      (LRCache.Get c lr key).1.Int32Val = (0, none) ∧
      (LRCache.Get c lr key).1.Int64Val = (0, none) ∧
      (LRCache.Get c lr key).1.IntVal = (0, none) ∧
      (LRCache.Get c lr key).1.Float64Val = (0, none) := by
  have hnil : (LRCache.Get c lr key).1.Value = Value.nil := by
    rcases Get_item c lr key with ⟨e, _, h⟩ | ⟨_, ⟨b, h⟩ | h | ⟨err, _, h⟩⟩
    · rw [h] at herr; simp [LRCacheItem.Error] at herr
    · rw [h] at herr; simp [LRCacheItem.Error] at herr
    · rw [h]; rfl
    · rw [h]; rfl
  exact ⟨hnil, accessors_of_nil _ hnil⟩

theorem accessors_ignore_item_error_witness :
    (LRCache.Get redisDown demoDown "a").1.Error ≠ none ∧
      (LRCache.Get redisDown demoDown "a").1.Value = Value.nil ∧
      (LRCache.Get redisDown demoDown "a").1.StringVal = ([], none) ∧
      (LRCache.Get redisDown demoDown "a").1.Int32Val = (0, none) ∧
      (LRCache.Get redisDown demoDown "a").1.Int64Val = (0, none) ∧
      (LRCache.Get redisDown demoDown "a").1.IntVal = (0, none) ∧
      (LRCache.Get redisDown demoDown "a").1.Float64Val = (0, none) :=
  ⟨by decide, accessors_ignore_item_error redisDown demoDown "a" (by decide)⟩

/-- Claim C7 as stated fails: with no server behind the address, `Get` of an evicted key
gives an item whose `Error()` is set, and every typed accessor returns a nil error on it. -/
theorem accessor_error_is_not_item_error :
    (LRCache.Get redisDown demoDown "a").1.Error =
        some (GoError.New "dial tcp: lookup loc22alhost: no such host") ∧
      (LRCache.Get redisDown demoDown "a").1.StringVal.2 = none ∧
      (LRCache.Get redisDown demoDown "a").1.Int32Val.2 = none ∧
      (LRCache.Get redisDown demoDown "a").1.Int64Val.2 = none ∧
      (LRCache.Get redisDown demoDown "a").1.IntVal.2 = none ∧
      (LRCache.Get redisDown demoDown "a").1.Float64Val.2 = none := by
  decide

/-- Claim C8. With no server behind the address, after any run of `Set` calls with `int`
values on a fresh cache, `Get` of any key, resident or evicted, gives an item with
`FromRedis() = false` on which `IntVal()` returns a nil error. -/
theorem no_redis_all_from_lru (redisPrefix : String) (size : Int) (notifyRemove : Bool)
    (lr : LRCache Unit) (kvs : List (String × Value)) (key : String)
    (hnew : NewLRCache () redisPrefix size notifyRemove = .ok lr)
    (hints : ∀ kv ∈ kvs, kv.2.isInt = true) :
    (LRCache.Get redisDown (LRCache.SetAll redisDown lr kvs).2 key).1.FromRedis = false ∧
      (LRCache.Get redisDown (LRCache.SetAll redisDown lr kvs).2 key).1.IntVal.2 = none := by
  have hinv := run_values redisDown (fun v => v.isInt = true) lr
    (kvs.map (fun kv => Call.Set kv.1 kv.2))
    (by rw [(NewLRCache_empty () redisPrefix size notifyRemove lr hnew).1]; simp)
    (by
      intro k v hm
      rw [List.mem_map] at hm
      obtain ⟨kv, hkv, heq⟩ := hm
      cases heq
      exact hints kv hkv)
  rw [← SetAll_eq_run] at hinv
  generalize (LRCache.SetAll redisDown lr kvs).2 = st at hinv ⊢
  cases hl : lru.lookup key st.lruCache.evictList with
  | some e =>
    rw [(Get_resident redisDown st key e hl).1]
    have hi := hinv e (lru.lookup_some hl).1
    refine ⟨rfl, ?_⟩
    cases hv : e.value <;> rw [hv] at hi <;> simp [Value.isInt] at hi
    simp [LRCacheItem.IntVal, LRCacheItem.Value, LRCacheItem.IsGob, reflectTypeString]
  | none =>
    rw [Get_absent redisDown st key hl, redisDown_Get]
    simp [newLRCacheItem, LRCacheItem.FromRedis, LRCacheItem.IntVal, LRCacheItem.Value]

theorem no_redis_all_from_lru_witness :
    ((LRCache.Get redisDown (LRCache.SetAll redisDown demoFreshDown demoSets).2 "a").1.FromRedis
        = false ∧
      (LRCache.Get redisDown (LRCache.SetAll redisDown demoFreshDown demoSets).2 "a").1.IntVal.2
        = none) ∧
    ((LRCache.Get redisDown (LRCache.SetAll redisDown demoFreshDown demoSets).2 "c").1.FromRedis
        = false ∧
      (LRCache.Get redisDown (LRCache.SetAll redisDown demoFreshDown demoSets).2 "c").1.IntVal.2
        = none) :=
  ⟨no_redis_all_from_lru "rl_" 2 true demoFreshDown demoSets "a" rfl (by decide),
   no_redis_all_from_lru "rl_" 2 true demoFreshDown demoSets "c" rfl (by decide)⟩

/-! ## Delete -/

theorem Delete_lruCache {σ : Type} (c : Conn σ) (lr : LRCache σ) (key : String) :
    (LRCache.Delete c lr key).lruCache = (lr.lruCache.Remove key).1 := rfl

theorem lru.Remove_lookup_self (c : lru.Cache) (key : String) (h : c.WF) :
    lru.lookup key (c.Remove key).1.evictList = none := by
  unfold lru.Cache.Remove
  cases hl : lru.lookup key c.evictList with
  | some e => exact lru.lookup_eq_none.mpr (lru.not_mem_keys_unlink key _ h.1)
  | none => exact hl

theorem lru.Remove_lookup_other (c : lru.Cache) (key k : String) (hne : k ≠ key) :
    lru.lookup k (c.Remove key).1.evictList = lru.lookup k c.evictList := by
  unfold lru.Cache.Remove
  cases hl : lru.lookup key c.evictList with
  | some e => exact lru.lookup_unlink_ne hne _
  | none => rfl

/-- Claim C9. `Delete(key)` is a total function of the cache whatever the server answers to
the `DEL` (its error is dropped), and after it the container holds no entry for `key` and
every other key keeps its entry. On a server that answers, a following `Get(key)` gives a
nil value and no error, whether `key` was resident, on the server, in both or in neither,
and every other key is as it was in the container and on the server. -/
theorem delete_removes_from_both_tiers (lr : LRCache Store) (key : String)
    (hwf : lr.lruCache.WF) :
    (∀ (τ : Type) (c : Conn τ) (l : LRCache τ), l.lruCache.WF →
      (LRCache.Delete c l key).lruCache.Contains key = false ∧
      (LRCache.Delete c l key).lruCache.WF ∧
      ∀ k, k ≠ key →
        lru.lookup k (LRCache.Delete c l key).lruCache.evictList =
          lru.lookup k l.lruCache.evictList) ∧
    ((LRCache.Get redisUp (LRCache.Delete redisUp lr key) key).1.Value = Value.nil ∧
      (LRCache.Get redisUp (LRCache.Delete redisUp lr key) key).1.Error = none) ∧
    Store.find (lr.redisCache.redisPrefix ++ key)
        (LRCache.Delete redisUp lr key).redisCache.pool = none ∧
    (∀ k, k ≠ key →
      lru.lookup k (LRCache.Delete redisUp lr key).lruCache.evictList =
          lru.lookup k lr.lruCache.evictList ∧
        Store.find (lr.redisCache.redisPrefix ++ k)
            (LRCache.Delete redisUp lr key).redisCache.pool =
          Store.find (lr.redisCache.redisPrefix ++ k) lr.redisCache.pool) := by
  have hpre : (LRCache.Delete redisUp lr key).redisCache.redisPrefix =
      lr.redisCache.redisPrefix := by
    unfold LRCache.Delete
    dsimp only
    rw [(redisUp_Delete _ key "").1, (redisUp_notify _ _ "").1]
  have hgone : Store.find (lr.redisCache.redisPrefix ++ key)
      (LRCache.Delete redisUp lr key).redisCache.pool = none := by
    unfold LRCache.Delete
    dsimp only
    have hd := redisUp_Delete (LRCache.notify redisUp lr.redisCache (lr.lruCache.Remove key).2)
      key (lr.redisCache.redisPrefix ++ key)
    rw [(redisUp_notify _ _ "").1] at hd
    rw [hd.2, if_pos rfl]
  refine ⟨?_, ?_, hgone, ?_⟩
  · intro τ c l hl
    rw [Delete_lruCache]
    refine ⟨?_, (lru.Remove_WF _ key hl).1, fun k hk => lru.Remove_lookup_other _ key k hk⟩
    unfold lru.Cache.Contains
    rw [lru.Remove_lookup_self _ key hl]
    rfl
  · have hl : lru.lookup key (LRCache.Delete redisUp lr key).lruCache.evictList = none := by
      rw [Delete_lruCache]; exact lru.Remove_lookup_self _ key hwf
    rw [Get_absent redisUp _ key hl, redisUp_Get, hpre, hgone]
    simp [newLRCacheItem, LRCacheItem.Value, LRCacheItem.Error]
  · intro k hk
    obtain ⟨d1, _, d3⟩ := redisUp_Delete_other lr key k hk
    exact ⟨d1, d3⟩

theorem delete_removes_from_both_tiers_witness :
    ((LRCache.Get redisUp (LRCache.Delete redisUp demoEvicted "a") "a").1.Value = Value.nil ∧
      (LRCache.Get redisUp (LRCache.Delete redisUp demoEvicted "a") "a").1.Error = none) ∧
    ((LRCache.Get redisUp (LRCache.Delete redisUp demoEvicted "c") "c").1.Value = Value.nil ∧
      (LRCache.Get redisUp (LRCache.Delete redisUp demoEvicted "c") "c").1.Error = none) :=
  ⟨(delete_removes_from_both_tiers demoEvicted "a" (by decide)).2.1,
   (delete_removes_from_both_tiers demoEvicted "c" (by decide)).2.1⟩

/-! ## `Get` does not populate the container -/

/-- Claim C10. `Get` never populates the container: whatever the server answers, the entries
after `Get(key)` are the entries before it, in some order, the capacity is the same, and the
only call the adapter sees is its `Get`. On a server that answers, adapter and server are
unchanged, and an answer from the server is not promoted: the cache is then the same as
before the call, and a repeated `Get(key)` gives the same item with `FromRedis() = true`. -/
theorem get_does_not_populate {σ : Type} (c : Conn σ) (lr : LRCache σ) (l : LRCache Store)
    (key : String) :
    (LRCache.Get c lr key).2.lruCache.evictList.Perm lr.lruCache.evictList ∧
    (LRCache.Get c lr key).2.lruCache.size = lr.lruCache.size ∧
    (∀ k, lru.lookup k (LRCache.Get c lr key).2.lruCache.evictList =
      lru.lookup k lr.lruCache.evictList) ∧
    ((LRCache.Get c lr key).2.redisCache = lr.redisCache ∨
      (LRCache.Get c lr key).2.redisCache = (lr.redisCache.Get c key).2) ∧
    (LRCache.Get redisUp l key).2.redisCache = l.redisCache ∧
    ((LRCache.Get redisUp l key).1.FromRedis = true →
      (LRCache.Get redisUp l key).2 = l ∧
      (LRCache.Get redisUp (LRCache.Get redisUp l key).2 key).1 = (LRCache.Get redisUp l key).1 ∧
      (LRCache.Get redisUp (LRCache.Get redisUp l key).2 key).1.FromRedis = true) := by
  refine ⟨?_, ?_, fun k => Get_lookup c lr key k, ?_, redisUp_Get_redisCache l key, ?_⟩
  · rw [Get_lruCache]; exact lru.Get_perm _ key
  · rw [Get_lruCache]
    unfold lru.Cache.Get
    cases lru.lookup key lr.lruCache.evictList <;> rfl
  · cases hl : lru.lookup key lr.lruCache.evictList with
    | some e => left; rw [(Get_resident c lr key e hl).2]
    | none =>
      right
      rw [Get_absent c lr key hl]
      split <;> rfl
  · intro hfr
    cases hl : lru.lookup key l.lruCache.evictList with
    | some e =>
      rw [(Get_resident redisUp l key e hl).1] at hfr
      simp [LRCacheItem.FromRedis] at hfr
    | none =>
      have hsame : (LRCache.Get redisUp l key).2 = l := by
        rw [Get_absent redisUp l key hl, redisUp_Get]
        split <;> rfl
      rw [hsame]
      exact ⟨rfl, rfl, hfr⟩

/-- The cache of the example after a `Get` of the evicted key: the key is still not
resident, and the second `Get` is answered by the server again. -/
theorem get_does_not_populate_witness :
    (LRCache.Get redisUp demoEvicted "a").1.FromRedis = true ∧
      (LRCache.Get redisUp demoEvicted "a").2 = demoEvicted ∧
      (LRCache.Get redisUp (LRCache.Get redisUp demoEvicted "a").2 "a").1.FromRedis = true :=
  ⟨by decide,
   ((get_does_not_populate redisUp demoEvicted demoEvicted "a").2.2.2.2.2 (by decide)).1,
   ((get_does_not_populate redisUp demoEvicted demoEvicted "a").2.2.2.2.2 (by decide)).2.2⟩

/-! ## The two tiers agree with the calls made -/

theorem Call.effect_other (key : String) (last : Last) (call : Call) (h : call.key ≠ key) :
    Call.effect key last call = last := by
  cases call with
  | Set k v => simp only [Call.key] at h; simp [Call.effect, h]
  | Get k => rfl
  | Delete k => simp only [Call.key] at h; simp [Call.effect, h]

/-- `Get` of any key keeps a held value held. -/
theorem Holds_Get (lr : LRCache Store) (key k : String) (v : Value) (h : lr.Holds k v) :
    (LRCache.Get redisUp lr key).2.Holds k v := by
  simp only [LRCache.Holds]
  rw [Get_lookup, redisUp_Get_redisCache, Get_lruCache]
  exact ⟨(lru.Get_WF _ key h.1).1, h.2⟩

/-- `Get` of any key keeps an absent key absent and the server as it is. -/
theorem Away_Get (lr : LRCache Store) (key k : String) (x : Option Bytes) (h : lr.Away k x) :
    (LRCache.Get redisUp lr key).2.Away k x := by
  simp only [LRCache.Away]
  rw [Get_lookup, redisUp_Get_redisCache, Get_lruCache]
  exact ⟨(lru.Get_WF _ key h.1).1, h.2⟩

/-- A key that is not resident stays so, with the same entry on the server, while the calls
name other keys. -/
theorem Away_step (lr : LRCache Store) (k : String) (x : Option Bytes) (call : Call)
    (h : lr.Away k x) (hcall : call.key ≠ k) : (LRCache.step redisUp lr call).Away k x := by
  have hne : k ≠ call.key := fun h2 => hcall h2.symm
  cases call with
  | Set key val =>
    simp only [Call.key] at hne
    simp only [LRCache.step, LRCache.Set, LRCache.SetHook, LRCache.Away]
    have hn := redisUp_notify lr.redisCache (lr.lruCache.Add key val).2.1
      (lr.redisCache.redisPrefix ++ k)
    refine ⟨(lru.Add_WF _ key val h.1).1, ?_⟩
    rw [hn.1, hn.2]
    rcases lru.Add_other lr.lruCache key val k h.1 hne with ⟨h1, h2⟩ | ⟨e, _, _, h3, _⟩
    · rw [h1]
      refine ⟨h.2.1, ?_⟩
      cases hev : (lr.lruCache.Add key val).2.1 with
      | none => exact h.2.2
      | some e =>
        have h7 : ¬ lr.redisCache.redisPrefix ++ e.key = lr.redisCache.redisPrefix ++ k :=
          fun h8 => h2 e hev ((prefix_append_inj _ _ _).mp h8)
        simp only
        rw [if_neg h7]; exact h.2.2
    · rw [h.2.1] at h3; cases h3
  | Get key => exact Away_Get lr key k x h
  | Delete key =>
    simp only [Call.key] at hne
    simp only [LRCache.step, LRCache.Away]
    obtain ⟨d1, d2, d3⟩ := redisUp_Delete_other lr key k hne
    rw [d1, d2, d3]
    exact ⟨(lru.Remove_WF _ key h.1).1, h.2⟩

/-- After `Delete(key)` on a server that answers the key is in neither tier. -/
theorem Away_Delete (lr : LRCache Store) (key : String) (hwf : lr.lruCache.WF) :
    (LRCache.Delete redisUp lr key).Away key none := by
  have hpre : (LRCache.Delete redisUp lr key).redisCache.redisPrefix =
      lr.redisCache.redisPrefix := by
    unfold LRCache.Delete
    dsimp only
    rw [(redisUp_Delete _ key "").1, (redisUp_notify _ _ "").1]
  refine ⟨?_, ?_, ?_⟩
  · rw [Delete_lruCache]; exact (lru.Remove_WF _ key hwf).1
  · rw [Delete_lruCache]; exact lru.Remove_lookup_self _ key hwf
  · rw [hpre]
    unfold LRCache.Delete
    dsimp only
    have hd := redisUp_Delete (LRCache.notify redisUp lr.redisCache (lr.lruCache.Remove key).2)
      key (lr.redisCache.redisPrefix ++ key)
    rw [(redisUp_notify _ _ "").1] at hd
    rw [hd.2, if_pos rfl]

theorem Coherent_WF (lr : LRCache Store) (key : String) (f0 : Option Bytes) (last : Last)
    (h : lr.Coherent key f0 last) : lr.lruCache.WF := by
  cases last with
  | never => exact h.1
  | deleted => exact h.1
  | set v => exact h.2.1

/-- One call keeps the two tiers in agreement with the record of the key. -/
theorem Coherent_step (lr : LRCache Store) (key : String) (f0 : Option Bytes) (last : Last)
    (call : Call) (h : lr.Coherent key f0 last) (hnil : call.setsNil = false) :
    (LRCache.step redisUp lr call).Coherent key f0 (Call.effect key last call) := by
  have hwf := Coherent_WF lr key f0 last h
  by_cases hk : call.key = key
  · cases call with
    | Set k v =>
      simp only [Call.key] at hk
      subst hk
      simp only [Call.effect, if_true, LRCache.step, LRCache.Coherent]
      refine ⟨?_, Holds_Set lr k v hwf⟩
      simpa [Call.setsNil] using hnil
    | Get k =>
      simp only [Call.effect, LRCache.step]
      cases last with
      | never => exact Away_Get lr k key f0 h
      | deleted => exact Away_Get lr k key none h
      | set v => exact ⟨h.1, Holds_Get lr k key v h.2⟩
    | Delete k =>
      simp only [Call.key] at hk
      subst hk
      simp only [Call.effect, if_true, LRCache.step, LRCache.Coherent]
      exact Away_Delete lr k hwf
  · rw [Call.effect_other key last call hk]
    cases last with
    | never => exact Away_step lr key f0 call h hk
    | deleted => exact Away_step lr key none call h hk
    | set v => exact ⟨h.1, Holds_step lr key v call h.2 h.1 hk⟩

theorem Coherent_run (lr : LRCache Store) (key : String) (f0 : Option Bytes) (last : Last)
    (calls : List Call) (h : lr.Coherent key f0 last)
    (hnil : ∀ call ∈ calls, call.setsNil = false) :
    (LRCache.run redisUp lr calls).Coherent key f0 (calls.foldl (Call.effect key) last) := by
  induction calls generalizing lr last with
  | nil => exact h
  | cons call rest ih =>
    simp only [LRCache.run, List.foldl_cons]
    exact ih _ _ (Coherent_step lr key f0 last call h (hnil call (List.mem_cons_self _ _)))
      (fun c hc => hnil c (List.mem_cons_of_mem _ hc))

/-- What `Get` returns for a key that is not resident, on a server that answers. -/
theorem Get_of_Away (lr : LRCache Store) (key : String) (x : Option Bytes)
    (h : lr.Away key x) :
    (LRCache.Get redisUp lr key).1 = remoteItem x := by
  rw [Get_absent redisUp lr key h.2.1, redisUp_Get, h.2.2]
  cases x <;> simp [newLRCacheItem, remoteItem]

/-- Claim C11, as amended. Two-tier coherence on a server that answers: on a fresh cache of
any capacity, after any sequence of `Set` (with non-nil values), `Get` and `Delete` calls,
`Get(key)` reflects the last `Set(key, v)` that no `Delete(key)` followed: it returns `v`
itself with `FromRedis() = false` when the key is resident and the encoding of `v` with
`FromRedis() = true` when it is not, so never an older copy left on the server; a key whose
last call was `Delete` yields a nil value and no error; and a key no call has named yields
what a `Get` on the fresh cache yields, the entry the server held before, which is a nil
value when the server held none. -/
theorem two_tier_coherence (pool : Store) (redisPrefix : String) (size : Int)
    (notifyRemove : Bool) (lr : LRCache Store) (calls : List Call) (key : String)
    (hnew : NewLRCache pool redisPrefix size notifyRemove = .ok lr)
    (hnil : ∀ call ∈ calls, call.setsNil = false) :
    (∀ v, lastOn key calls = Last.set v →
      ((LRCache.run redisUp lr calls).lruCache.Contains key = true →
        (LRCache.Get redisUp (LRCache.run redisUp lr calls) key).1 =
          { v := v, fromRedis := false, err := none }) ∧
      ((LRCache.run redisUp lr calls).lruCache.Contains key = false →
        (LRCache.Get redisUp (LRCache.run redisUp lr calls) key).1 =
          { v := Value.uint8s (gob.Encode v), fromRedis := true, err := none })) ∧
    (lastOn key calls = Last.deleted →
      (LRCache.Get redisUp (LRCache.run redisUp lr calls) key).1.Value = Value.nil ∧
      (LRCache.Get redisUp (LRCache.run redisUp lr calls) key).1.Error = none) ∧
    (lastOn key calls = Last.never →
      (LRCache.Get redisUp (LRCache.run redisUp lr calls) key).1 =
        (LRCache.Get redisUp lr key).1 ∧
      (Store.find (redisPrefix ++ key) pool = none →
        (LRCache.Get redisUp (LRCache.run redisUp lr calls) key).1.Value = Value.nil ∧
        (LRCache.Get redisUp (LRCache.run redisUp lr calls) key).1.Error = none)) := by
  obtain ⟨hempty, _, hsize⟩ := NewLRCache_empty pool redisPrefix size notifyRemove lr hnew
  have hrc : lr.redisCache.pool = pool ∧ lr.redisCache.redisPrefix = redisPrefix := by
    unfold NewLRCache at hnew
    cases hl : lru.NewWithEvict size notifyRemove with
    | error e => rw [hl] at hnew; simp at hnew
    | ok l =>
      rw [hl] at hnew
      simp only [Except.ok.injEq] at hnew
      subst hnew
      exact ⟨rfl, rfl⟩
  have h0 : lr.Away key (Store.find (redisPrefix ++ key) pool) := by
    refine ⟨⟨?_, ?_, hsize⟩, ?_, ?_⟩
    · unfold lru.Cache.Keys; rw [hempty]; exact List.nodup_nil
    · rw [hempty]; exact Nat.zero_le _
    · rw [hempty]; rfl
    · rw [hrc.1, hrc.2]
  have hrun := Coherent_run lr key (Store.find (redisPrefix ++ key) pool) Last.never calls h0 hnil
  change (LRCache.run redisUp lr calls).Coherent key _ (lastOn key calls) at hrun
  refine ⟨?_, ?_, ?_⟩
  · intro v hv
    rw [hv] at hrun
    exact Get_of_Holds _ key v hrun.2
  · intro hd
    rw [hd] at hrun
    rw [Get_of_Away _ key none hrun]
    exact ⟨rfl, rfl⟩
  · intro hn
    rw [hn] at hrun
    rw [Get_of_Away _ key _ hrun, Get_of_Away lr key _ h0]
    refine ⟨rfl, ?_⟩
    intro hf
    rw [hf]
    exact ⟨rfl, rfl⟩

theorem two_tier_coherence_witness :
    lastOn "a" demoHistory = Last.set (Value.int 4) ∧
      (LRCache.run redisUp demoFresh demoHistory).lruCache.Contains "a" = false ∧
      (LRCache.Get redisUp (LRCache.run redisUp demoFresh demoHistory) "a").1 =
        { v := Value.uint8s (gob.Encode (Value.int 4)), fromRedis := true, err := none } :=
  ⟨by decide, by decide,
   ((two_tier_coherence [] "rl_" 2 true demoFresh demoHistory "a" rfl (by decide)).1
      (Value.int 4) (by decide)).2 (by decide)⟩

/-- Claim C11 as stated fails in its last part: a fresh cache over a server that holds an
entry from before answers `Get` of a key that no call has set with that entry, not with an
absent value. -/
theorem never_set_key_answered_by_server :
    NewLRCache [("rl_a", [3, 4, 0, 2])] "rl_" 2 true = .ok demoStale ∧
      lastOn "a" demoCalls = Last.never ∧
      (∀ call ∈ demoCalls, call.setsNil = false) ∧
      (LRCache.Get redisUp (LRCache.run redisUp demoStale demoCalls) "a").1 =
        { v := Value.uint8s [3, 4, 0, 2], fromRedis := true, err := none } ∧
      (LRCache.Get redisUp (LRCache.run redisUp demoStale demoCalls) "a").1.IntVal =
        (1, none) :=
  ⟨rfl, by decide, by decide, by decide, by decide⟩

end lrcache
